import Mathlib

/-!
# Verification of the pgn-manager move-tree engine

Shallow embedding of `src/index.ts` (class `PGNManager`) and `src/utils.ts`
(`regeneratePGN`).  The move/variation tree handed over by the external
`pgn-parser` is modelled by the mutual inductive types `MoveT`/`RavT`; the
external chess rules engine (`chess.js`) is an opaque parameter (`Engine`).
JavaScript object identity is modelled by a numeric `id` carried by every
move; well-formedness (`wfGame`) states that all ids in a tree are distinct,
which is automatic in JavaScript because every parsed or freshly constructed
move is a distinct object and ownership is tree-shaped.
-/

namespace PGNM

/-- Side that moved: "w" or "b" in the source. -/
inductive Color where
  | w : Color
  | b : Color
deriving DecidableEq, Repr

/-- `chessGame.turn() === "w" ? "b" : "w"`. -/
def Color.invert : Color → Color
  | .w => .b
  | .b => .w

/-- A JavaScript numeric-or-undefined value, as stored in `move_number`.
`undefined + 1` evaluates to `NaN` in JavaScript, so `NaN` must be
representable. -/
inductive JNum where
  | undef : JNum
  | nan : JNum
  | num (n : Int) : JNum
deriving DecidableEq, Repr

/-- JavaScript `x + 1` on a `number | undefined` value. -/
def JNum.add1 : JNum → JNum
  | .undef => .nan
  | .nan => .nan
  | .num n => .num (n + 1)

/-- A PGN header: `{ name, value }`. -/
structure Header where
  name : String
  value : String
deriving DecidableEq, Repr

/-- A `chess.js` `ShortMove` (`{ from, to, promotion? }`); `from` is a Lean
keyword so the fields are `fromSq`/`toSq`. -/
structure ShortMove where
  fromSq : String
  toSq : String
  promotion : Option String := none
deriving DecidableEq, Repr

mutual
/-- A parsed `Move` node (`pgn-parser`): move number, SAN text, comments and
attached variations, plus an `id` modelling JavaScript object identity. -/
inductive MoveT : Type where
  | mk (id : Nat) (num : JNum) (text : String) (comments : List String)
      (ravs : List RavT) : MoveT
/-- A parsed `Rav` (variation): a move sequence and optional result. -/
inductive RavT : Type where
  | mk (moves : List MoveT) (result : Option String) : RavT
end

def MoveT.id : MoveT → Nat
  | .mk i _ _ _ _ => i

def MoveT.num : MoveT → JNum
  | .mk _ n _ _ _ => n

def MoveT.text : MoveT → String
  | .mk _ _ t _ _ => t

def MoveT.comments : MoveT → List String
  | .mk _ _ _ c _ => c

def MoveT.ravs : MoveT → List RavT
  | .mk _ _ _ _ r => r

def RavT.moves : RavT → List MoveT
  | .mk m _ => m

def RavT.result : RavT → Option String
  | .mk _ r => r

/-- The parsed document root (`ParsedPGN`): headers, top-level move sequence,
result marker and free-text comments.  Nullable parser fields are `Option`s. -/
structure GameT where
  headers : Option (List Header)
  moves : List MoveT
  result : String
  commentsAboveHeader : Option (List String) := none
  comments : Option (List String) := none

/-- `FEN_START_POSITION` from the source. -/
def FEN_START_POSITION : String :=
  "rnbqkbnr/pppppppp/8/8/8/8/PPPPPPPP/RNBQKBNR w KQkq - 0 1"

/-- `FEN_EMPTY_POSITION` from the source. -/
def FEN_EMPTY_POSITION : String := "8/8/8/8/8/8/8/8"

/-- The external rules engine (`chess.js`), §6 of the spec: plays a SAN string
or a `ShortMove` against a FEN, in strict or sloppy mode, returning the new
FEN (and for `ShortMove` also the SAN text recorded in `history()`), or `none`
on rejection; `turn` is the side to move of a position. -/
structure Engine where
  playSan : String → String → Option String
  playSanSloppy : String → String → Option String
  playShort : String → ShortMove → Option (String × String)
  playShortSloppy : String → ShortMove → Option (String × String)
  turn : String → Color

/-- `chessGame.move(text, strict) || chessGame.move(text, sloppy)`: the FEN
after attempting a SAN move strict-then-sloppy, or the unchanged FEN on double
failure (the source logs and proceeds). -/
def Engine.playOr (e : Engine) (p : String) (t : String) : String :=
  match e.playSan p t with
  | some q => q
  | none => match e.playSanSloppy p t with
    | some q => q
    | none => p

mutual
/-- Moves-only depth-first linearization of a move list: each move precedes
the moves of its variations (`sortedMoves.push(move)` happens before the
`ravs` loop in `dfsOnGame`). -/
def linMs : List MoveT → List MoveT
  | [] => []
  | m@(.mk _ _ _ _ ravs) :: ms => m :: (linRavs ravs ++ linMs ms)
/-- Moves-only linearization of a list of variations, in attachment order. -/
def linRavs : List RavT → List MoveT
  | [] => []
  | .mk mvs _ :: rs => linMs mvs ++ linRavs rs
end

/-- All ids occurring in the tree below a move list, in dfs order. -/
def idsOf (ms : List MoveT) : List Nat := (linMs ms).map MoveT.id

/-- Well-formedness: every move in the tree is a distinct JavaScript object,
modelled as all ids being distinct. -/
def wfGame (g : GameT) : Prop := (idsOf g.moves).Nodup

/-- A Container (§3 of the spec): an ordered move sequence plus its anchor —
`none` for the top-level document, `some a` for a variation attached to `a`.
Models the values of the `moveParent` map (the holding `Rav`, or the
`ParsedPGN` itself for mainline moves) together with the `ravParent` entry
for that `Rav`. -/
structure Cont where
  moves : List MoveT
  anchor : Option MoveT

/-- One record produced by the Linearization Pass for a move: the entry in
`sortedMoves` together with that move's `moveFen` and `moveColor` values and
its chain of enclosing Containers (innermost first; head = the value of
`moveParent`, head's `anchor` = the value of `ravParent` on it). -/
structure Entry where
  move : MoveT
  fen : String
  color : Color
  path : List Cont

mutual
/-- `dfsOnGame` for one move: the move's entry is emitted first (the
`sortedMoves.push` happens before the `ravs` loop), then the entries of its
variations, each linearized from the pre-move position `p`; the move's own
FEN is the result of playing its text strict-then-sloppy from `p`. -/
def dfsM (e : Engine) (path : List Cont) (p : String) : MoveT → List Entry × String
  | m@(.mk _ _ _ _ ravs) =>
    let ravEntries := dfsRavs e path p m ravs
    let q := e.playOr p m.text
    (⟨m, q, (e.turn q).invert, path⟩ :: ravEntries, q)
/-- The `for (let rav of move.ravs)` loop: each variation gets a fresh
engine at the pre-move position `p` and is linearized in attachment order. -/
def dfsRavs (e : Engine) (path : List Cont) (p : String) (anc : MoveT) :
    List RavT → List Entry
  | [] => []
  | .mk mvs _ :: rs =>
    (dfsMs e (⟨mvs, some anc⟩ :: path) p mvs).1 ++ dfsRavs e path p anc rs
/-- Linearization of a container's move list, threading the position. -/
def dfsMs (e : Engine) (path : List Cont) (p : String) : List MoveT → List Entry × String
  | [] => ([], p)
  | m :: ms =>
    let x := dfsM e path p m
    let y := dfsMs e path x.2 ms
    (x.1 ++ y.1, y.2)
end

/-- The starting position used by `dfOnGame`: the value of a FEN header when
present and non-empty (`|| FEN_START_POSITION` catches the empty string),
else the standard initial position. -/
def startFen (g : GameT) : String :=
  match (g.headers.getD []).find? (fun h => h.name.toUpper == "FEN") with
  | some h => if h.value.isEmpty then FEN_START_POSITION else h.value
  | none => FEN_START_POSITION

/-- `dfOnGame`: full linearization of the document from its start position;
the top-level Container has the whole mainline and no anchor. -/
def dfsGame (e : Engine) (g : GameT) : List Entry :=
  (dfsMs e [⟨g.moves, none⟩] (startFen g) g.moves).1

/-- A manager state: the tree, the caches produced by the last Linearization
Pass, and the current textual rendering. -/
structure St where
  game : GameT
  entries : List Entry
  rawPGN : String

/-- A freshly (re)built state: every reachable `PGNManager` state has caches
equal to `dfsGame` of its current tree, because the constructor and both
mutations end by running `dfOnGame`. -/
def mkSt (e : Engine) (g : GameT) (raw : String) : St := ⟨g, dfsGame e g, raw⟩

/-- The Order index (`sortedMoves`). -/
def sortedOf (st : St) : List MoveT := st.entries.map Entry.move

/-- Identity-keyed cache lookup (`moveParent.get` / `moveFen.get` /
`moveColor.get` resolve the same entry). -/
def entryOf (st : St) (m : MoveT) : Option Entry :=
  st.entries.find? (fun en => en.move.id == m.id)

/-- `getMove`: 1-based indexing into `sortedMoves`; out-of-range (including
zero and negatives) yields the JavaScript `undefined`, modelled as `none`. -/
def getMove (st : St) (n : Int) : Option MoveT :=
  if n ≤ 0 then none else (sortedOf st).get? (n.toNat - 1)

/-- `getMoveNumber`: `sortedMoves.indexOf(move) + 1`; `0` when absent. -/
def getMoveNumber (st : St) (m : MoveT) : Nat :=
  match (sortedOf st).findIdx? (fun x => x.id == m.id) with
  | some i => i + 1
  | none => 0

/-- `getMoveFen`: throws for unknown moves; `moveFen ? moveFen :
FEN_EMPTY_POSITION` maps an empty cached string to the placeholder. -/
def getMoveFen (st : St) (m : MoveT) : Except String String :=
  match entryOf st m with
  | none => .error "Invalid 'move' parameter while getting fen"
  | some en => .ok (if en.fen.isEmpty then FEN_EMPTY_POSITION else en.fen)

/-- `getMoveColor`: cached side that played the move. -/
def getMoveColor (st : St) (m : MoveT) : Except String Color :=
  match entryOf st m with
  | none => .error "Invalid 'move' parameter while getting move color"
  | some en => .ok en.color

/-- `getParentRav`: throws for unknown moves, otherwise returns the stored
`moveParent` value — which is the holding `Rav` for variation moves and the
`ParsedPGN` document itself (a truthy, `Rav`-shaped value) for mainline
moves; `null` (`none`) is returned only if the stored value were falsy,
which never happens. -/
def getParentRav (st : St) (m : MoveT) : Except String (Option Cont) :=
  match entryOf st m with
  | none => .error "Invalid 'move' parameter while getting parent rav"
  | some en => .ok en.path.head?

/-- `move == this.game.moves[this.game.moves.length - 1]`. -/
def isLastOfMainline (st : St) (m : MoveT) : Bool :=
  match st.game.moves.getLast? with
  | some l => l.id == m.id
  | none => false

/-- `move === this.sortedMoves[this.sortedMoves.length - 1]`. -/
def isLastOfSorted (st : St) (m : MoveT) : Bool :=
  match (sortedOf st).getLast? with
  | some l => l.id == m.id
  | none => false

/-- `nextMove`, fuel-indexed: the source recurses on the anchor
(`this.nextMove(superParent)`); each recursion climbs exactly one container
level, so the nesting depth of the starting move bounds the recursion. -/
def nextMoveF : Nat → St → MoveT → Option MoveT
  | 0, _, _ => none
  | fuel + 1, st, m =>
    if isLastOfMainline st m || isLastOfSorted st m then some m
    else
      let temp := getMove st ((getMoveNumber st m : Int) + 1)
      match (entryOf st m).map Entry.path with
      | some (f :: _) =>
        let i : Int := match f.moves.findIdx? (fun x => x.id == m.id) with
          | some j => (j : Int)
          | none => -1
        if i == (f.moves.length : Int) - 1 then
          match f.anchor with
          | some a => nextMoveF fuel st a
          | none => temp
        else f.moves.get? (i + 1).toNat
      | _ => temp

/-- The container-nesting depth of a move (length of its Container chain). -/
def pathLen (st : St) (m : MoveT) : Nat :=
  match (entryOf st m).map Entry.path with
  | some p => p.length
  | none => 0

/-- `nextMove` on a move reference: fuel `pathLen + 1` covers the full anchor
chain. -/
def nextMove (st : St) (m : MoveT) : Option MoveT :=
  nextMoveF (pathLen st m + 1) st m

/-- `previousMove` on a move reference: `undefined` outcomes are `none`. -/
def previousMove (st : St) (m : MoveT) : Option MoveT :=
  let n := getMoveNumber st m
  if n == 0 then none
  else
    let temp := getMove st ((n : Int) - 1)
    match (entryOf st m).map Entry.path with
    | some (f :: _) =>
      let i : Int := match f.moves.findIdx? (fun x => x.id == m.id) with
        | some j => (j : Int)
        | none => -1
      if i == 0 then
        match f.anchor with
        | some a => some a
        | none => temp
      else if i - 1 < 0 then none
      else f.moves.get? (i - 1).toNat
    | _ => temp

/-!
## Tree surgery

The source mutates the container array reached through the `moveParent` map
(`parentRav.moves.push(...)`, `parentRav.moves.splice(index)`) or the anchor
move reached through `nextMove` (`anchor.ravs.push(newRav)`).  In the pure
embedding the same container/move is found by searching the tree for the id;
under `wfGame` the id occurs exactly once, so these updates touch exactly the
object the source mutates.
-/

mutual
/-- Apply `fcn` to the container list directly holding the move with id
`mid` (the `parentRav.moves` array). -/
def updCMs (mid : Nat) (fcn : List MoveT → List MoveT) (ms : List MoveT) :
    List MoveT :=
  if ms.any (fun x => x.id == mid) then fcn ms else updCEach mid fcn ms
termination_by (sizeOf ms, 1)
/-- Recurse into each move's variations looking for the container. -/
def updCEach (mid : Nat) (fcn : List MoveT → List MoveT) :
    List MoveT → List MoveT
  | [] => []
  | .mk i n t c ravs :: ms =>
    .mk i n t c (updCRavs mid fcn ravs) :: updCEach mid fcn ms
termination_by ms => (sizeOf ms, 0)
/-- Recurse into each variation's move list looking for the container. -/
def updCRavs (mid : Nat) (fcn : List MoveT → List MoveT) :
    List RavT → List RavT
  | [] => []
  | .mk mvs res :: rs => .mk (updCMs mid fcn mvs) res :: updCRavs mid fcn rs
termination_by rs => (sizeOf rs, 0)
end

mutual
/-- Apply `fmv` to the move with id `mid` (e.g. `anchor.ravs.push`). -/
def updMv (mid : Nat) (fmv : MoveT → MoveT) : List MoveT → List MoveT
  | [] => []
  | m@(.mk i n t c ravs) :: ms =>
    (if m.id == mid then fmv m else .mk i n t c (updMvRavs mid fmv ravs))
      :: updMv mid fmv ms
/-- Recurse into variations looking for the move. -/
def updMvRavs (mid : Nat) (fmv : MoveT → MoveT) : List RavT → List RavT
  | [] => []
  | .mk mvs res :: rs => .mk (updMv mid fmv mvs) res :: updMvRavs mid fmv rs
end

/-- `if (!anchor.ravs) anchor.ravs = []; anchor.ravs.push(newRav)`. -/
def MoveT.pushRav (r : RavT) : MoveT → MoveT
  | .mk i n t c ravs => .mk i n t c (ravs ++ [r])

/-!
## Serializer (`src/utils.ts`)
-/

/-- A comment wrapped in its delimiters. -/
def wrapComment (c : String) : String := "\x7b" ++ c ++ "\x7d"

/-- The move-number token: `"<n>."`, with `".."` appended when the move was
played by black; JavaScript renders `NaN` as the string `NaN`. -/
def numToken (n : JNum) (isBlack : Bool) : List String :=
  match n with
  | .undef => []
  | .nan => ["NaN." ++ (if isBlack then ".." else "")]
  | .num k => [toString k ++ "." ++ (if isBlack then ".." else "")]

mutual
/-- `formatMoves`: the space-joined token list for a move sequence. -/
def fmtMs (colorOf : MoveT → Option Color) : List MoveT → List String
  | [] => []
  | m@(.mk _ n t cs ravs) :: ms =>
    numToken n (colorOf m == some .b) ++ [t] ++ cs.map wrapComment
      ++ fmtRavs colorOf ravs ++ fmtMs colorOf ms
/-- Each variation rendered in parentheses with its result inside. -/
def fmtRavs (colorOf : MoveT → Option Color) : List RavT → List String
  | [] => []
  | .mk mvs res :: rs =>
    ("(" ++ String.intercalate " " (fmtMs colorOf mvs)
      ++ (match res with | some r => " " ++ r | none => "") ++ ")")
      :: fmtRavs colorOf rs
end

/-- `regeneratePGN`: comments above the header, headers, comments, the move
text and the result, joined by newlines.  A present-but-empty list still
contributes its separator line (empty arrays are truthy in JavaScript). -/
def regeneratePGN (g : GameT) (colorOf : MoveT → Option Color) : String :=
  let l1 := match g.commentsAboveHeader with
    | some cs => cs.map wrapComment ++ [""]
    | none => []
  let l2 := match g.headers with
    | some hs =>
      hs.map (fun h => "[" ++ h.name ++ " \"" ++ h.value ++ "\"]") ++ [""]
    | none => []
  let l3 := match g.comments with
    | some cs => cs.map wrapComment ++ [""]
    | none => []
  let movesText := String.intercalate " " (fmtMs colorOf g.moves)
  let l4 := if movesText.isEmpty then [] else [movesText]
  String.intercalate "\n" (l1 ++ l2 ++ l3 ++ l4 ++ [g.result])

/-!
## Mutation engine
-/

/-- A fresh JavaScript object identity for the move built by `pushMove`. -/
def freshId (st : St) : Nat :=
  (st.entries.map (fun en => en.move.id)).foldr max 0 + 1

/-- `chess.move(newMove, strict) || chess.move(newMove, sloppy)`: the
resulting FEN and recorded SAN, or `none` when both modes reject. -/
def Engine.playShortOr (e : Engine) (fen : String) (nm : ShortMove) :
    Option (String × String) :=
  match e.playShort fen nm with
  | some r => some r
  | none => e.playShortSloppy fen nm

/-- The starting position `pushMove` uses for `moveId === 0`: the value of a
"fen" header if one exists, else the standard initial position. -/
def pushStartFen (g : GameT) : String :=
  match (g.headers.getD []).find? (fun h => h.name.toLower == "fen") with
  | some h => h.value
  | none => FEN_START_POSITION

/-- `pushMove`: resolve the starting position and current move, play the
candidate strict-then-sloppy (rejection aborts before any mutation), build
the new `Move` object, splice it into the tree, then regenerate the PGN text
and rebuild all caches.  Thrown `Error`s are `Except.error`. -/
def pushMove (e : Engine) (st : St) (moveId : Int) (nm : ShortMove)
    (result : String) : Except String (St × MoveT) := do
  -- 1) Initialize ChessJS & parentRav
  let (fen, cur) ←
    if moveId == 0 then
      pure ((pushStartFen st.game, (none : Option MoveT)))
    else
      match getMove st moveId with
      | none => throw "Invalid moveId while pushing a new move!"
      | some c => do
        let f ← getMoveFen st c
        pure (f, some c)
  -- 2) Play the move (strict → sloppy)
  match e.playShortOr fen nm with
  | none => throw "Invalid move"
  | some (fen2, san) =>
    let nextColor := (e.turn fen2).invert
    -- 3) Build the Move object
    let num ← match cur with
      | none => pure (JNum.num 1)
      | some c => do
        let col ← getMoveColor st c
        pure (if col == Color.w then c.num else c.num.add1)
    let moveObj : MoveT := .mk (freshId st) num san [] []
    -- 4) Insert into the data structures
    let g2 : GameT ←
      match cur with
      | none =>
        match st.game.moves with
        | [] => pure { st.game with moves := [moveObj] }
        | first :: _ =>
          pure { st.game with
            moves := updMv first.id (MoveT.pushRav (.mk [moveObj] (some result)))
              st.game.moves }
      | some c =>
        let f : Cont := match (entryOf st c).map Entry.path with
          | some (fr :: _) => fr
          | _ => ⟨st.game.moves, none⟩
        let parentVariation := match f.moves.getLast? with
          | some l => !(l.id == c.id)
          | none => true
        if parentVariation then
          let anchor := match nextMove st c with
            | some a => a
            | none => c
          pure { st.game with
            moves := updMv anchor.id (MoveT.pushRav (.mk [moveObj] (some result)))
              st.game.moves }
        else
          pure { st.game with
            moves := updCMs c.id (fun ms => ms ++ [moveObj]) st.game.moves }
    -- 5) Update FEN, color, PGN and rebuild
    let colorMap := fun mv =>
      if mv.id == moveObj.id then some nextColor
      else (entryOf st mv).map Entry.color
    let raw2 := regeneratePGN g2 colorMap
    pure (mkSt e g2 raw2, moveObj)

/-- `parentRav.moves.splice(index)`: drop from the target's index to the end
(`splice(-1)`, reached only for an unknown index, drops the final element). -/
def delFn (mid : Nat) (ms : List MoveT) : List MoveT :=
  match ms.findIdx? (fun x => x.id == mid) with
  | some i => ms.take i
  | none => ms.take (ms.length - 1)

/-- `deleteMove`: resolve the move, splice its container from its index to
the end, evict map entries (invisible after the rebuild), regenerate the PGN
text and rebuild all caches. -/
def deleteMove (e : Engine) (st : St) (moveId : Int) : Except String St :=
  match getMove st moveId with
  | none => .error "Invalid move"
  | some m =>
    let g2 : GameT := { st.game with
      moves := updCMs m.id (delFn m.id) st.game.moves }
    let colorMap := fun mv => (entryOf st mv).map Entry.color
    .ok (mkSt e g2 (regeneratePGN g2 colorMap))

/-- Outcome of a mutation call under JavaScript exception semantics. -/
inductive PushOutcome where
  | ret (m : MoveT)
  | threw (msg : String)

/-- `manager.pushMove(...)` as a state transformer: a thrown error leaves the
manager object — tree, caches and rendering — exactly as it was. -/
def runPush (e : Engine) (st : St) (moveId : Int) (nm : ShortMove)
    (result : String) : St × PushOutcome :=
  match pushMove e st moveId nm result with
  | .ok (st2, mv) => (st2, .ret mv)
  | .error msg => (st, .threw msg)

end PGNM

namespace PGNM

/-!
## Generic list lemmas (identity-keyed lookup)
-/

/-- `find?` by a key returns the unique element with that key when keys are
duplicate-free. -/
theorem find_key_eq {α : Type} (key : α → Nat) (l : List α) (a : α)
    (ha : a ∈ l) (hnod : (l.map key).Nodup) :
    l.find? (fun x => key x == key a) = some a := by
  induction l with
  | nil => simp at ha
  | cons b t ih =>
    rw [List.find?_cons]
    rcases List.mem_cons.mp ha with rfl | hat
    · simp
    · have hne : key b ≠ key a := by
        intro hk
        have : key a ∈ t.map key := List.mem_map_of_mem key hat
        rw [← hk] at this
        exact (List.nodup_cons.mp hnod).1 this
      have : (key b == key a) = false := beq_false_of_ne hne
      rw [this]
      exact ih hat (List.nodup_cons.mp hnod).2

/-- `findIdx?` by key, with start index, finds the unique keyed element. -/
theorem findIdx_key_aux {α : Type} (key : α → Nat) (a : α) :
    ∀ (l : List α) (s : Nat), a ∈ l → (l.map key).Nodup →
    ∃ j, List.findIdx? (fun x => key x == key a) l s = some (s + j) ∧
      l.get? j = some a := by
  intro l
  induction l with
  | nil => intro s h; simp at h
  | cons b t ih =>
    intro s ha hnod
    rw [List.findIdx?_cons]
    rcases List.mem_cons.mp ha with rfl | hat
    · exact ⟨0, by simp⟩
    · have hne : key b ≠ key a := by
        intro hk
        have : key a ∈ t.map key := List.mem_map_of_mem key hat
        rw [← hk] at this
        exact (List.nodup_cons.mp hnod).1 this
      have hb : (key b == key a) = false := beq_false_of_ne hne
      rw [hb]
      obtain ⟨j, h1, h2⟩ := ih (s + 1) hat (List.nodup_cons.mp hnod).2
      refine ⟨j + 1, ?_, by simpa using h2⟩
      rw [if_neg (by simp), h1]
      congr 1
      omega

/-!
## Linearization lemmas
-/

mutual
/-- The entries of one move project to its moves-only linearization. -/
theorem dfsM_moves (e : Engine) (path : List Cont) (p : String) (m : MoveT) :
    (dfsM e path p m).1.map Entry.move = m :: linRavs m.ravs := by
  match m with
  | .mk i n t c ravs =>
    simp only [dfsM, List.map_cons, MoveT.ravs]
    exact congrArg _ (dfsRavs_moves e path p (.mk i n t c ravs) ravs)
/-- The entries of a variation list project to its linearization. -/
theorem dfsRavs_moves (e : Engine) (path : List Cont) (p : String)
    (anc : MoveT) (rs : List RavT) :
    (dfsRavs e path p anc rs).map Entry.move = linRavs rs := by
  match rs with
  | [] => simp [dfsRavs, linRavs]
  | .mk mvs res :: rs2 =>
    simp only [dfsRavs, linRavs, List.map_append]
    rw [dfsMs_moves, dfsRavs_moves]
/-- The entries of a move list project to its linearization. -/
theorem dfsMs_moves (e : Engine) (path : List Cont) (p : String)
    (ms : List MoveT) :
    (dfsMs e path p ms).1.map Entry.move = linMs ms := by
  match ms with
  | [] => simp [dfsMs, linMs]
  | m :: ms2 =>
    match m with
    | .mk i n t c ravs =>
      simp only [dfsMs, linMs, List.map_append]
      rw [dfsM_moves, dfsMs_moves]
      simp [MoveT.ravs]
end

mutual
/-- Anchor invariant, per move: any entry whose innermost Container has
anchor `a` either sits directly in the ambient path, or the traversal also
produced `a`'s own entry with exactly the remaining (enclosing) path. -/
theorem dfsM_anchor (e : Engine) (path : List Cont) (p : String) (m : MoveT) :
    ∀ en ∈ (dfsM e path p m).1, ∀ f rest a, en.path = f :: rest →
      f.anchor = some a →
      (f :: rest = path) ∨
      (∃ en2 ∈ (dfsM e path p m).1, en2.move = a ∧ en2.path = rest) := by
  match m with
  | .mk i n t c ravs =>
    intro en hen f rest a hp ha
    rw [dfsM] at hen
    rcases List.mem_cons.mp hen with rfl | hrav
    · left; rw [← hp]
    · have := dfsRavs_anchor e path p (.mk i n t c ravs)
        (MoveT.ravs (.mk i n t c ravs)) en hrav f rest a hp ha
      rcases this with ⟨rfl, rfl⟩ | ⟨en2, h1, h2, h3⟩
      · right
        refine ⟨⟨.mk i n t c ravs, e.playOr p (MoveT.text (.mk i n t c ravs)),
          (e.turn (e.playOr p (MoveT.text (.mk i n t c ravs)))).invert,
          rest⟩, ?_, rfl, rfl⟩
        rw [dfsM]
        exact List.mem_cons_self _ _
      · right
        refine ⟨en2, ?_, h2, h3⟩
        rw [dfsM]
        exact List.mem_cons_of_mem _ h1
/-- Anchor invariant, per variation list. -/
theorem dfsRavs_anchor (e : Engine) (path : List Cont) (p : String)
    (anc : MoveT) (rs : List RavT) :
    ∀ en ∈ dfsRavs e path p anc rs, ∀ f rest a, en.path = f :: rest →
      f.anchor = some a →
      (a = anc ∧ rest = path) ∨
      (∃ en2 ∈ dfsRavs e path p anc rs, en2.move = a ∧ en2.path = rest) := by
  match rs with
  | [] => intro en hen; rw [dfsRavs] at hen; simp at hen
  | .mk mvs res :: rs2 =>
    intro en hen f rest a hp ha
    rw [dfsRavs] at hen
    rcases List.mem_append.mp hen with hl | hr
    · have := dfsMs_anchor e (⟨mvs, some anc⟩ :: path) p mvs en hl f rest a hp ha
      rcases this with heq | ⟨en2, h1, h2, h3⟩
      · left
        have hf : f = ⟨mvs, some anc⟩ := (List.cons.injEq _ _ _ _ ▸ heq).1
        have hrest : rest = path := (List.cons.injEq _ _ _ _ ▸ heq).2
        rw [hf] at ha
        simp only [Cont.mk.injEq] at ha ⊢
        exact ⟨by simpa using ha.symm, hrest⟩
      · right
        refine ⟨en2, ?_, h2, h3⟩
        rw [dfsRavs]
        exact List.mem_append.mpr (Or.inl h1)
    · have := dfsRavs_anchor e path p anc rs2 en hr f rest a hp ha
      rcases this with h | ⟨en2, h1, h2, h3⟩
      · exact Or.inl h
      · right
        refine ⟨en2, ?_, h2, h3⟩
        rw [dfsRavs]
        exact List.mem_append.mpr (Or.inr h1)
/-- Anchor invariant, per move list. -/
theorem dfsMs_anchor (e : Engine) (path : List Cont) (p : String)
    (ms : List MoveT) :
    ∀ en ∈ (dfsMs e path p ms).1, ∀ f rest a, en.path = f :: rest →
      f.anchor = some a →
      (f :: rest = path) ∨
      (∃ en2 ∈ (dfsMs e path p ms).1, en2.move = a ∧ en2.path = rest) := by
  match ms with
  | [] => intro en hen; rw [dfsMs] at hen; simp at hen
  | m :: ms2 =>
    intro en hen f rest a hp ha
    rw [dfsMs] at hen
    rcases List.mem_append.mp hen with hl | hr
    · have := dfsM_anchor e path p m en hl f rest a hp ha
      rcases this with h | ⟨en2, h1, h2, h3⟩
      · exact Or.inl h
      · right
        refine ⟨en2, ?_, h2, h3⟩
        rw [dfsMs]
        exact List.mem_append.mpr (Or.inl h1)
    · have := dfsMs_anchor e path ((dfsM e path p m).2) ms2 en hr f rest a hp ha
      rcases this with h | ⟨en2, h1, h2, h3⟩
      · exact Or.inl h
      · right
        refine ⟨en2, ?_, h2, h3⟩
        rw [dfsMs]
        exact List.mem_append.mpr (Or.inr h1)
end

/-- The Order index of a rebuilt state is the moves-only linearization. -/
theorem sortedOf_mkSt (e : Engine) (g : GameT) (raw : String) :
    sortedOf (mkSt e g raw) = linMs g.moves := by
  simp only [sortedOf, mkSt, dfsGame]
  exact dfsMs_moves e _ _ _

/-- Under well-formedness the entry ids are duplicate-free. -/
theorem entries_ids_nodup (e : Engine) (g : GameT) (raw : String)
    (hwf : wfGame g) :
    ((mkSt e g raw).entries.map (fun en => en.move.id)).Nodup := by
  have h1 : (mkSt e g raw).entries.map (fun en => en.move.id)
      = ((mkSt e g raw).entries.map Entry.move).map MoveT.id := by
    rw [List.map_map]; rfl
  rw [h1]
  have h2 : (mkSt e g raw).entries.map Entry.move = linMs g.moves :=
    sortedOf_mkSt e g raw
  rw [h2]
  exact hwf

/-- A move of the Order index has an identity-resolving cache entry. -/
theorem entryOf_of_mem (e : Engine) (g : GameT) (raw : String)
    (hwf : wfGame g) (m : MoveT) (hm : m ∈ sortedOf (mkSt e g raw)) :
    ∃ en, entryOf (mkSt e g raw) m = some en ∧ en.move = m := by
  obtain ⟨en, hen, henm⟩ := List.mem_map.mp hm
  refine ⟨en, ?_, henm⟩
  have hkey : (fun (x : Entry) => x.move.id == m.id)
      = (fun x => (fun (y : Entry) => y.move.id) x
          == (fun (y : Entry) => y.move.id) en) := by
    funext x
    show (x.move.id == m.id) = (x.move.id == en.move.id)
    rw [henm]
  rw [entryOf, hkey]
  exact find_key_eq (fun y => y.move.id) _ en hen (entries_ids_nodup e g raw hwf)

/-- Climbing an anchor: the anchor move of any entry's innermost Container
resolves to an entry whose Container chain is exactly the remaining chain. -/
theorem entry_anchor (e : Engine) (g : GameT) (raw : String)
    (hwf : wfGame g) (m : MoveT) (en : Entry) (f : Cont) (rest : List Cont)
    (a : MoveT) (hen : entryOf (mkSt e g raw) m = some en)
    (hp : en.path = f :: rest) (ha : f.anchor = some a) :
    ∃ en2, entryOf (mkSt e g raw) a = some en2 ∧ en2.move = a ∧
      en2.path = rest := by
  have henmem : en ∈ (mkSt e g raw).entries := List.mem_of_find?_eq_some hen
  have := dfsMs_anchor e [⟨g.moves, none⟩] (startFen g) g.moves en henmem
    f rest a hp ha
  rcases this with heq | ⟨en2, h1, h2, h3⟩
  · exfalso
    have hf : f = ⟨g.moves, none⟩ := (List.cons.injEq _ _ _ _ ▸ heq).1
    rw [hf] at ha
    simp at ha
  · refine ⟨en2, ?_, h2, h3⟩
    have hkey : (fun (x : Entry) => x.move.id == a.id)
        = (fun x => (fun (y : Entry) => y.move.id) x
            == (fun (y : Entry) => y.move.id) en2) := by
      funext x
      show (x.move.id == a.id) = (x.move.id == en2.move.id)
      rw [h2]
    rw [entryOf, hkey]
    exact find_key_eq (fun y => y.move.id) _ en2 h1 (entries_ids_nodup e g raw hwf)

/-- A tree move's 1-based Order position is its id-index plus one. -/
theorem getMoveNumber_of_mem (e : Engine) (g : GameT) (raw : String)
    (hwf : wfGame g) (m : MoveT) (hm : m ∈ sortedOf (mkSt e g raw)) :
    ∃ j, (sortedOf (mkSt e g raw)).findIdx? (fun x => x.id == m.id) = some j ∧
      (sortedOf (mkSt e g raw)).get? j = some m ∧
      getMoveNumber (mkSt e g raw) m = j + 1 := by
  have hnod : ((sortedOf (mkSt e g raw)).map MoveT.id).Nodup := by
    rw [sortedOf_mkSt]
    exact hwf
  obtain ⟨j, h1, h2⟩ := findIdx_key_aux MoveT.id m (sortedOf (mkSt e g raw)) 0 hm hnod
  rw [Nat.zero_add] at h1
  refine ⟨j, h1, h2, ?_⟩
  rw [getMoveNumber, h1]

/-- The variation loop is the concatenation, in attachment order, of each
variation's linearization started from the same pre-move position. -/
theorem dfsRavs_eq_join (e : Engine) (path : List Cont) (p : String)
    (anc : MoveT) (rs : List RavT) :
    dfsRavs e path p anc rs
      = (rs.map (fun r =>
          (dfsMs e (⟨r.moves, some anc⟩ :: path) p r.moves).1)).flatten := by
  induction rs with
  | nil => rw [dfsRavs]; simp
  | cons r rs2 ih =>
    obtain ⟨mvs, res⟩ := r
    rw [dfsRavs, ih]
    simp [RavT.moves]

end PGNM

namespace PGNM

/-!
## Claim theorems
-/

/-- C1: the Linearization Pass visits moves depth-first: a Move `m` is
appended to the Order index before the moves of its attached Variations; each
Variation attached to `m` is linearized, in attachment order, starting from
the position `p` before `m` is played (so sibling Variations all branch from
the same pre-move position, independently); and `m`'s cached position is its
move text applied to `p` (computed only after all Variations are processed),
which becomes the current position for the next Move of `m`'s Container. -/
theorem claim_C1 (e : Engine) (path : List Cont) (p : String)
    (m : MoveT) (ms : List MoveT) :
    (dfsMs e path p (m :: ms)).1 =
      ⟨m, e.playOr p m.text, (e.turn (e.playOr p m.text)).invert, path⟩
        :: ((m.ravs.map (fun r =>
              (dfsMs e (⟨r.moves, some m⟩ :: path) p r.moves).1)).flatten
          ++ (dfsMs e path (e.playOr p m.text) ms).1) ∧
    (dfsMs e path p (m :: ms)).2 = (dfsMs e path (e.playOr p m.text) ms).2 := by
  obtain ⟨i, n, t, c, ravs⟩ := m
  rw [dfsMs]
  constructor
  · simp only [dfsM]
    rw [dfsRavs_eq_join]
    simp [MoveT.ravs, MoveT.text]
  · simp only [dfsM, MoveT.text]

/-- C2: for a Move `m` of the tree, `nextMove` returns `m` itself when `m` is
the last element of the top-level Container or of the Order index; otherwise,
when `m` sits at index `i` of its Container `C` and `i` is not the last
index, it returns `C[i+1]`; and when `m` is the last element of a Variation
`C` with anchor `a`, it equals `nextMove` of `a` (climbing anchors
recursively). -/
theorem claim_C2 (e : Engine) (g : GameT) (raw : String)
    (hwf : wfGame g) (m : MoveT) (_hm : m ∈ sortedOf (mkSt e g raw)) :
    ((isLastOfMainline (mkSt e g raw) m || isLastOfSorted (mkSt e g raw) m)
        = true →
      nextMove (mkSt e g raw) m = some m) ∧
    (∀ en f rest i, entryOf (mkSt e g raw) m = some en → en.path = f :: rest →
      (isLastOfMainline (mkSt e g raw) m || isLastOfSorted (mkSt e g raw) m)
        = false →
      f.moves.findIdx? (fun x => x.id == m.id) = some i →
      i + 1 < f.moves.length →
      ∃ x, f.moves.get? (i + 1) = some x ∧
        nextMove (mkSt e g raw) m = some x) ∧
    (∀ en f rest a i, entryOf (mkSt e g raw) m = some en →
      en.path = f :: rest →
      (isLastOfMainline (mkSt e g raw) m || isLastOfSorted (mkSt e g raw) m)
        = false →
      f.moves.findIdx? (fun x => x.id == m.id) = some i →
      i + 1 = f.moves.length → f.anchor = some a →
      nextMove (mkSt e g raw) m = nextMove (mkSt e g raw) a) := by
  set st := mkSt e g raw with hst
  refine ⟨?_, ?_, ?_⟩
  · intro hcond
    rw [nextMove]
    simp only [nextMoveF]
    rw [hcond]
    simp
  · intro en f rest i hen hp hcond hidx hlt
    rw [nextMove]
    simp only [nextMoveF]
    rw [hcond]
    simp only [Bool.false_eq_true, if_false, hen, Option.map_some', hp, hidx]
    have hne : ((i : Int) == (f.moves.length : Int) - 1) = false := by
      apply beq_false_of_ne
      omega
    rw [hne]
    simp only [Bool.false_eq_true, if_false]
    have hi : ((i : Int) + 1).toNat = i + 1 := by omega
    rw [hi]
    exact ⟨f.moves.get ⟨i + 1, hlt⟩, List.get?_eq_get hlt, List.get?_eq_get hlt⟩
  · intro en f rest a i hen hp hcond hidx hlen ha
    rw [nextMove]
    simp only [nextMoveF]
    rw [hcond]
    simp only [Bool.false_eq_true, if_false, hen, Option.map_some', hp, hidx]
    have heq : ((i : Int) == (f.moves.length : Int) - 1) = true := by
      apply beq_iff_eq.mpr
      omega
    rw [heq]
    simp only [if_true, ha]
    have hplm : pathLen st m = rest.length + 1 := by
      rw [pathLen, hen]
      simp [hp]
    obtain ⟨en2, hen2, hmv2, hp2⟩ := entry_anchor e g raw hwf m en f rest a hen hp ha
    have hpla : pathLen st a = rest.length := by
      rw [pathLen, hen2]
      simp [hp2]
    rw [nextMove, hpla, hplm]

/-- C3: for a Move `m` at index `j` of its Container `C`, `previousMove`
returns the container-local predecessor `C[j-1]` when `j > 0`, and the
Variation's anchor Move itself when `j = 0` and `C` has an anchor. -/
theorem claim_C3 (e : Engine) (g : GameT) (raw : String)
    (hwf : wfGame g) (m : MoveT) (hm : m ∈ sortedOf (mkSt e g raw)) :
    (∀ en f rest j, entryOf (mkSt e g raw) m = some en → en.path = f :: rest →
      f.moves.findIdx? (fun x => x.id == m.id) = some j → 0 < j →
      ∃ x, f.moves.get? (j - 1) = some x ∧
        previousMove (mkSt e g raw) m = some x) ∧
    (∀ en f rest a, entryOf (mkSt e g raw) m = some en → en.path = f :: rest →
      f.moves.findIdx? (fun x => x.id == m.id) = some 0 → f.anchor = some a →
      previousMove (mkSt e g raw) m = some a) := by
  obtain ⟨k, hk1, hk2, hk3⟩ := getMoveNumber_of_mem e g raw hwf m hm
  constructor
  · intro en f rest j hen hp hidx hpos
    rw [previousMove, hk3]
    have h0 : ((k + 1 : Nat) == 0) = false := by simp
    rw [h0]
    simp only [Bool.false_eq_true, if_false, hen, Option.map_some', hp, hidx]
    have hz : ((j : Int) == 0) = false := by
      apply beq_false_of_ne
      omega
    rw [hz]
    simp only [Bool.false_eq_true, if_false]
    have hneg : ¬((j : Int) - 1 < 0) := by omega
    rw [if_neg hneg]
    have hjl : j < f.moves.length :=
      (List.findIdx?_eq_some_iff_findIdx_eq.mp hidx).1
    have hlt : j - 1 < f.moves.length := by omega
    have ht : ((j : Int) - 1).toNat = j - 1 := by omega
    rw [ht]
    exact ⟨f.moves.get ⟨j - 1, hlt⟩, List.get?_eq_get hlt, List.get?_eq_get hlt⟩
  · intro en f rest a hen hp hidx ha
    rw [previousMove, hk3]
    have h0 : ((k + 1 : Nat) == 0) = false := by simp
    rw [h0]
    simp only [Bool.false_eq_true, if_false, hen, Option.map_some', hp, hidx]
    simp only [Int.natCast_zero, beq_self_eq_true, if_true, ha]

/-- C8: for every Move `m` present in the tree of a rebuilt manager state
(construction and every mutation rebuild via the Linearization Pass),
`moveAt(orderOf(m)) == m`: `getMove` applied to `getMoveNumber m` returns
`m` itself. -/
theorem claim_C8 (e : Engine) (g : GameT) (raw : String)
    (hwf : wfGame g) (m : MoveT) (hm : m ∈ linMs g.moves) :
    getMove (mkSt e g raw) ((getMoveNumber (mkSt e g raw) m : Nat) : Int)
      = some m := by
  have hms : m ∈ sortedOf (mkSt e g raw) := by rw [sortedOf_mkSt]; exact hm
  obtain ⟨j, h1, h2, h3⟩ := getMoveNumber_of_mem e g raw hwf m hms
  rw [h3, getMove, if_neg (by omega)]
  have : ((j + 1 : Nat) : Int).toNat - 1 = j := by omega
  rw [this]
  exact h2

/-- C10: `getMove` fails (yields the `undefined` absence value, `none`) for
every integer outside `1 .. length of the Order index`, and returns the nth
Move of the Order index (1-based) for every n in range. -/
theorem claim_C10 (st : St) :
    (∀ n : Int, (n < 1 ∨ ((sortedOf st).length : Int) < n) →
      getMove st n = none) ∧
    (∀ n : Int, 1 ≤ n → n ≤ ((sortedOf st).length : Int) →
      ∃ x, (sortedOf st).get? (n.toNat - 1) = some x ∧ getMove st n = some x) := by
  constructor
  · intro n hn
    rcases hn with h | h
    · rw [getMove, if_pos (by omega)]
    · rw [getMove]
      by_cases h0 : n ≤ 0
      · rw [if_pos h0]
      · rw [if_neg h0]
        apply List.get?_eq_none.mpr
        omega
  · intro n h1 h2
    have hlt : n.toNat - 1 < (sortedOf st).length := by omega
    refine ⟨(sortedOf st).get ⟨n.toNat - 1, hlt⟩, List.get?_eq_get hlt, ?_⟩
    rw [getMove, if_neg (by omega)]
    exact List.get?_eq_get hlt

end PGNM

namespace PGNM

/-!
## Concrete data for evaluations

A deterministic rules engine with short position strings (the position after
a move is the move's own text), and the example game
`1. e4 e5 2. Nf3 (2. f4 exf4) Nc6` with a FEN header "s0".
-/

def simpleEngine : Engine where
  playSan := fun _ t => some t
  playSanSloppy := fun _ _ => none
  playShort := fun _ sm => some (sm.fromSq ++ sm.toSq, sm.fromSq ++ sm.toSq)
  playShortSloppy := fun _ _ => none
  turn := fun p => if p.length % 2 == 0 then Color.w else Color.b

def exM1 : MoveT := .mk 1 (.num 1) "e4" [] []
def exM2 : MoveT := .mk 2 (JNum.undef) "e5" [] []
def exM4 : MoveT := .mk 4 (.num 2) "f4" [] []
def exM5 : MoveT := .mk 5 (JNum.undef) "exf4" [] []
def exM3 : MoveT := .mk 3 (.num 2) "Nf3" [] [.mk [exM4, exM5] none]
def exM6 : MoveT := .mk 6 (JNum.undef) "Nc6" [] []

def exGame : GameT :=
  { headers := some [⟨"FEN", "s0"⟩], moves := [exM1, exM2, exM3, exM6],
    result := "*" }

def exSt : St := mkSt simpleEngine exGame "ex"

def exMainCont : Cont := ⟨[exM1, exM2, exM3, exM6], none⟩
def exRavCont : Cont := ⟨[exM4, exM5], some exM3⟩

theorem exGame_wf : wfGame exGame := by
  simp [wfGame, idsOf, linMs, linRavs, exGame, exM1, exM2, exM3, exM4, exM5,
    exM6, MoveT.id]

theorem exSt_sorted : sortedOf exSt = [exM1, exM2, exM3, exM4, exM5, exM6] := by
  simp [exSt, sortedOf, mkSt, dfsGame, dfsMs, dfsM, dfsRavs, exGame, exM1,
    exM2, exM3, exM4, exM5, exM6, startFen]

theorem exSt_entry5 : entryOf exSt exM5
    = some ⟨exM5, "exf4", Color.b, [exRavCont, exMainCont]⟩ := by
  simp [exSt, entryOf, mkSt, dfsGame, dfsMs, dfsM, dfsRavs, exGame, exM1,
    exM2, exM3, exM4, exM5, exM6, startFen, MoveT.id, simpleEngine,
    Engine.playOr, Color.invert, exRavCont, exMainCont, MoveT.text]
  decide

end PGNM

namespace PGNM

theorem exSt_entry4 : entryOf exSt exM4
    = some ⟨exM4, "f4", Color.b, [exRavCont, exMainCont]⟩ := by
  simp [exSt, entryOf, mkSt, dfsGame, dfsMs, dfsM, dfsRavs, exGame, exM1,
    exM2, exM3, exM4, exM5, exM6, startFen, MoveT.id, simpleEngine,
    Engine.playOr, exRavCont, exMainCont, MoveT.text]
  decide

theorem exSt_entry1 : entryOf exSt exM1
    = some ⟨exM1, "e4", Color.b, [exMainCont]⟩ := by
  simp [exSt, entryOf, mkSt, dfsGame, dfsMs, dfsM, dfsRavs, exGame, exM1,
    exM2, exM3, exM4, exM5, exM6, startFen, MoveT.id, simpleEngine,
    Engine.playOr, exMainCont, MoveT.text]
  decide

theorem exSt_notlast5 :
    (isLastOfMainline exSt exM5 || isLastOfSorted exSt exM5) = false := by
  rw [isLastOfMainline, isLastOfSorted, exSt_sorted]
  simp [exSt, mkSt, exGame, exM1, exM2, exM3, exM4, exM5, exM6, MoveT.id]

/-- C2 witness. -/
theorem claim_C2_witness :
    wfGame exGame ∧ nextMove exSt exM5 = nextMove exSt exM3 := by
  refine ⟨exGame_wf, ?_⟩
  have hm : exM5 ∈ sortedOf exSt := by rw [exSt_sorted]; simp
  exact (claim_C2 simpleEngine exGame "ex" exGame_wf exM5 hm).2.2
    ⟨exM5, "exf4", Color.b, [exRavCont, exMainCont]⟩ exRavCont [exMainCont]
    exM3 1 exSt_entry5 rfl exSt_notlast5 (by decide) (by decide) rfl

/-- C3 witness. -/
theorem claim_C3_witness :
    wfGame exGame ∧ previousMove exSt exM4 = some exM3 := by
  refine ⟨exGame_wf, ?_⟩
  have hm : exM4 ∈ sortedOf exSt := by rw [exSt_sorted]; simp
  exact (claim_C3 simpleEngine exGame "ex" exGame_wf exM4 hm).2
    ⟨exM4, "f4", Color.b, [exRavCont, exMainCont]⟩ exRavCont [exMainCont]
    exM3 exSt_entry4 rfl (by decide) rfl

/-- C8 witness. -/
theorem claim_C8_witness :
    wfGame exGame ∧
    getMove exSt ((getMoveNumber exSt exM4 : Nat) : Int) = some exM4 := by
  refine ⟨exGame_wf, ?_⟩
  have hm : exM4 ∈ linMs exGame.moves := by
    simp [linMs, linRavs, exGame, exM1, exM2, exM3, exM4, exM5, exM6]
  exact claim_C8 simpleEngine exGame "ex" exGame_wf exM4 hm

/-- C10 witness. -/
theorem claim_C10_witness : getMove exSt 99 = none := by
  exact (claim_C10 exSt).1 99 (Or.inr (by rw [exSt_sorted]; decide))

/-- C9: `parentVariationOf` on the mainline move `e4` of the example game
returns the top-level document container (a truthy `Rav`-shaped value whose
anchor is `none` and whose move list is the whole mainline), not the null
value the documentation promises for mainline moves. -/
theorem claim_C9 :
    getParentRav exSt exM1 = .ok (some exMainCont) ∧
    exMainCont.moves = exGame.moves ∧ exMainCont.anchor = none ∧
    getParentRav exSt exM1 ≠ .ok none := by
  refine ⟨?_, rfl, rfl, ?_⟩
  · rw [getParentRav, exSt_entry1]
    rfl
  · rw [getParentRav, exSt_entry1]
    simp

end PGNM

namespace PGNM

/-- C6: a candidate move the rules engine rejects in both strict and
permissive mode makes insert fail with InvalidMove, and the manager state —
move tree, Order index, Position/Parent/Anchor caches (`entries`) and the
textual rendering — is left exactly as it was before the call (the rejection
happens before any mutation step). -/
theorem claim_C6 (e : Engine) (st : St) (moveId : Int) (nm : ShortMove)
    (res : String) :
    (moveId = 0 → e.playShortOr (pushStartFen st.game) nm = none →
      runPush e st moveId nm res = (st, .threw "Invalid move")) ∧
    (∀ cur fen, moveId ≠ 0 → getMove st moveId = some cur →
      getMoveFen st cur = .ok fen → e.playShortOr fen nm = none →
      runPush e st moveId nm res = (st, .threw "Invalid move")) := by
  constructor
  · intro h0 hrej
    subst h0
    rw [runPush, pushMove]
    simp [hrej, bind, Except.bind, pure, Except.pure]
  · intro cur fen hne hcur hfen hrej
    rw [runPush, pushMove]
    have h0 : (moveId == 0) = false := by
      apply beq_false_of_ne hne
    simp [h0, hcur, hfen, hrej, bind, Except.bind, pure, Except.pure]

end PGNM

namespace PGNM

/-- C5: the move-number of a successfully inserted Move is 1 when there is no
anchor Move (insertion at order position 0); otherwise it is the anchor's
move-number when the anchor was played by white and the anchor's move-number
plus one (JavaScript addition: absent + 1 is NaN) when played by black. -/
theorem claim_C5 (e : Engine) (st : St) (moveId : Int) (nm : ShortMove)
    (res : String) :
    (∀ fen2 san, moveId = 0 →
      e.playShortOr (pushStartFen st.game) nm = some (fen2, san) →
      ∃ st2 mv, pushMove e st moveId nm res = .ok (st2, mv) ∧
        mv.num = JNum.num 1) ∧
    (∀ cur fen fen2 san col, moveId ≠ 0 → getMove st moveId = some cur →
      getMoveFen st cur = .ok fen → e.playShortOr fen nm = some (fen2, san) →
      getMoveColor st cur = .ok col →
      ∃ st2 mv, pushMove e st moveId nm res = .ok (st2, mv) ∧
        mv.num = (if col == Color.w then cur.num else cur.num.add1)) := by
  constructor
  · intro fen2 san h0 hplay
    subst h0
    rw [pushMove]
    simp only [beq_self_eq_true, if_true, bind, Except.bind, pure, Except.pure,
      hplay]
    split
    · exact ⟨_, _, rfl, rfl⟩
    · exact ⟨_, _, rfl, rfl⟩
  · intro cur fen fen2 san col hne hcur hfen hplay hcol
    rw [pushMove]
    have h0 : (moveId == 0) = false := beq_false_of_ne hne
    simp only [h0, Bool.false_eq_true, if_false, bind, Except.bind, pure,
      Except.pure, hcur, hfen, hplay, hcol]
    split
    · exact ⟨_, _, rfl, by simp [MoveT.num]⟩
    · exact ⟨_, _, rfl, by simp [MoveT.num]⟩

end PGNM

namespace PGNM

/-- A rules engine that rejects every candidate move. -/
def rejectEngine : Engine where
  playSan := fun _ _ => none
  playSanSloppy := fun _ _ => none
  playShort := fun _ _ => none
  playShortSloppy := fun _ _ => none
  turn := fun _ => Color.w

theorem exSt_entry2 : entryOf exSt exM2
    = some ⟨exM2, "e5", Color.b, [exMainCont]⟩ := by
  simp [exSt, entryOf, mkSt, dfsGame, dfsMs, dfsM, dfsRavs, exGame, exM1,
    exM2, exM3, exM4, exM5, exM6, startFen, MoveT.id, simpleEngine,
    Engine.playOr, exMainCont, MoveT.text]
  decide

/-- C6 witness. -/
theorem claim_C6_witness :
    rejectEngine.playShortOr (pushStartFen (mkSt rejectEngine exGame "ex").game)
      ⟨"e2", "e4", none⟩ = none ∧
    runPush rejectEngine (mkSt rejectEngine exGame "ex") 0 ⟨"e2", "e4", none⟩ "*"
      = (mkSt rejectEngine exGame "ex", .threw "Invalid move") := by
  refine ⟨rfl, ?_⟩
  exact (claim_C6 rejectEngine (mkSt rejectEngine exGame "ex") 0
    ⟨"e2", "e4", none⟩ "*").1 rfl rfl

/-- C5 witness: pushing after the black reply `e5` (whose move-number is
absent) produces a NaN move-number, the JavaScript value of absent + 1. -/
theorem claim_C5_witness :
    ∃ st2 mv, pushMove simpleEngine exSt 2 ⟨"g1", "f3", none⟩ "*"
      = .ok (st2, mv) ∧ mv.num = JNum.nan := by
  have h := (claim_C5 simpleEngine exSt 2 ⟨"g1", "f3", none⟩ "*").2
    exM2 "e5" "g1f3" "g1f3" Color.b (by decide)
    (by rw [getMove]; simp [exSt_sorted])
    (by rw [getMoveFen, exSt_entry2]; rfl)
    rfl
    (by rw [getMoveColor, exSt_entry2])
  obtain ⟨st2, mv, h1, h2⟩ := h
  exact ⟨st2, mv, h1, by rw [h2]; rfl⟩

end PGNM

namespace PGNM

/-- Shallow completeness: every direct member of a traversed container gets
an entry carrying exactly the ambient path. -/
theorem dfsMs_mem_shallow (e : Engine) (path : List Cont) :
    ∀ (ms : List MoveT) (p : String) (m : MoveT), m ∈ ms →
    ∃ en ∈ (dfsMs e path p ms).1, en.move = m ∧ en.path = path := by
  intro ms
  induction ms with
  | nil => intro p m h; simp at h
  | cons m0 ms2 ih =>
    intro p m hm
    rw [dfsMs]
    rcases List.mem_cons.mp hm with rfl | h2
    · obtain ⟨i, n, t, c, ravs⟩ := m
      refine ⟨⟨.mk i n t c ravs, e.playOr p (MoveT.text (.mk i n t c ravs)),
        (e.turn (e.playOr p (MoveT.text (.mk i n t c ravs)))).invert, path⟩,
        ?_, rfl, rfl⟩
      apply List.mem_append.mpr
      left
      rw [dfsM]
      exact List.mem_cons_self _ _
    · obtain ⟨en, h1, h2, h3⟩ := ih ((dfsM e path p m0).2) m h2
      exact ⟨en, List.mem_append.mpr (Or.inr h1), h2, h3⟩

/-- Nonemptiness of the traversal of a nonempty container. -/
theorem dfsMs_ne_nil (e : Engine) (path : List Cont) (p : String)
    (m : MoveT) (ms : List MoveT) : (dfsMs e path p (m :: ms)).1 ≠ [] := by
  obtain ⟨i, n, t, c, ravs⟩ := m
  rw [dfsMs, dfsM]
  simp

/-- The last element of an appended list, given the right part's last. -/
theorem getLast_append_right {α : Type} (l1 l2 : List α) (a : α)
    (h : l2.getLast? = some a) : (l1 ++ l2).getLast? = some a := by
  rw [List.getLast?_append, h]
  rfl

/-- The last element past a cons, given the tail's last. -/
theorem getLast_cons_right {α : Type} (x : α) (l : List α) (a : α)
    (h : l.getLast? = some a) : (x :: l).getLast? = some a := by
  have : x :: l = [x] ++ l := rfl
  rw [this]
  exact getLast_append_right [x] l a h

mutual
/-- The last entry of a nonempty container traversal is the last element of
its own Container.  The suffix hypothesis records that the processed list
is a tail segment of the innermost frame's full move list. -/
theorem dfsMs_last (e : Engine) (path : List Cont) (p : String)
    (ms : List MoveT) (hne : ms ≠ [])
    (hsuf : ∃ f pr, path = f :: pr ∧ ms <:+ f.moves) :
    ∃ en, (dfsMs e path p ms).1.getLast? = some en ∧
      ∃ f2 r2, en.path = f2 :: r2 ∧ f2.moves.getLast? = some en.move := by
  match ms with
  | [m] =>
    match m with
    | .mk i n t c ravs =>
      rw [dfsMs, dfsMs, dfsM]
      simp only [List.append_nil]
      rcases hrne : dfsRavs e path p (.mk i n t c ravs) ravs with _ | ⟨x, xs⟩
      · refine ⟨_, rfl, ?_⟩
        obtain ⟨f, pr, hpath, hsf⟩ := hsuf
        refine ⟨f, pr, hpath, ?_⟩
        obtain ⟨t0, ht0⟩ := hsf
        rw [← ht0]
        simp
      · have hrne2 : dfsRavs e path p (.mk i n t c ravs) ravs ≠ [] := by
          rw [hrne]; simp
        obtain ⟨en, h1, h2⟩ := dfsRavs_last e path p (.mk i n t c ravs) ravs hrne2
        rw [hrne] at h1
        exact ⟨en, getLast_cons_right _ _ _ h1, h2⟩
  | m :: m2 :: ms2 =>
    rw [dfsMs]
    obtain ⟨en, h1, h2⟩ := dfsMs_last e path ((dfsM e path p m).2) (m2 :: ms2)
      (by simp)
      (by
        obtain ⟨f, pr, hpath, hsf⟩ := hsuf
        exact ⟨f, pr, hpath, (List.suffix_cons m (m2 :: ms2)).trans hsf⟩)
    exact ⟨en, getLast_append_right _ _ _ h1, h2⟩
/-- The last entry of a nonempty variation-list traversal ends its own
Container. -/
theorem dfsRavs_last (e : Engine) (path : List Cont) (p : String)
    (anc : MoveT) (rs : List RavT) (hne : dfsRavs e path p anc rs ≠ []) :
    ∃ en, (dfsRavs e path p anc rs).getLast? = some en ∧
      ∃ f2 r2, en.path = f2 :: r2 ∧ f2.moves.getLast? = some en.move := by
  match rs with
  | [] => rw [dfsRavs] at hne; simp at hne
  | .mk mvs res :: rs2 =>
    rw [dfsRavs] at hne ⊢
    rcases hr2 : dfsRavs e path p anc rs2 with _ | ⟨y, ys⟩
    · simp only [List.append_nil] at hne ⊢
      rcases hmv : mvs with _ | ⟨mv, mvs2⟩
      · subst hmv
        simp [dfsMs] at hne
        exact absurd hr2 hne
      · exact dfsMs_last e (⟨mv :: mvs2, some anc⟩ :: path) p (mv :: mvs2)
          (by simp) ⟨⟨mv :: mvs2, some anc⟩, path, rfl, List.suffix_refl _⟩
    · have hne3 : dfsRavs e path p anc rs2 ≠ [] := by rw [hr2]; simp
      obtain ⟨en, h1, h2⟩ := dfsRavs_last e path p anc rs2 hne3
      rw [hr2] at h1
      exact ⟨en, getLast_append_right _ _ _ h1, h2⟩
end

end PGNM

namespace PGNM

/-- The last Move of the Order index is the last element of its own
Container. -/
theorem lastSorted_container (e : Engine) (g : GameT) (raw : String)
    (hwf : wfGame g) (mv : MoveT) (en : Entry) (f : Cont) (rest : List Cont)
    (hen : entryOf (mkSt e g raw) mv = some en) (hp : en.path = f :: rest)
    (hls : isLastOfSorted (mkSt e g raw) mv = true) :
    f.moves.getLast? = some en.move := by
  rw [isLastOfSorted] at hls
  rcases hlast : (sortedOf (mkSt e g raw)).getLast? with _ | l
  · rw [hlast] at hls; simp at hls
  · rw [hlast] at hls
    have hl : (sortedOf (mkSt e g raw)).getLast?
        = ((mkSt e g raw).entries.getLast?).map Entry.move := by
      rw [sortedOf]
      exact List.getLast?_map Entry.move _
    rw [hlast] at hl
    rcases he0 : (mkSt e g raw).entries.getLast? with _ | en0
    · rw [he0] at hl; simp at hl
    · rw [he0] at hl
      have hen0move : en0.move = l := by
        simpa using hl.symm
      have hgne : g.moves ≠ [] := by
        intro hnil
        have : (mkSt e g raw).entries = [] := by
          simp [mkSt, dfsGame, hnil, dfsMs]
        rw [this] at he0
        simp at he0
      obtain ⟨enL, hL1, f2, r2, hL2, hL3⟩ := dfsMs_last e [⟨g.moves, none⟩]
        (startFen g) g.moves hgne ⟨⟨g.moves, none⟩, [], rfl, List.suffix_refl _⟩
      have henL : enL = en0 := by
        have : some enL = some en0 := by rw [← hL1, ← he0]; rfl
        exact Option.some.injEq _ _ ▸ this
      subst henL
      have heq : en = enL := by
        have h1 : en ∈ (mkSt e g raw).entries := List.mem_of_find?_eq_some hen
        have h2 : enL ∈ (mkSt e g raw).entries := List.mem_of_mem_getLast? he0
        have hkey1 : en.move.id = mv.id := by
          have := List.find?_some hen
          simpa using this
        have hkey2 : enL.move.id = mv.id := by
          rw [hen0move]
          simpa using hls
        exact List.inj_on_of_nodup_map (entries_ids_nodup e g raw hwf)
          h1 h2 (by rw [hkey1, hkey2])
      rw [← heq] at hL2 hL3
      rw [hp] at hL2
      have hf : f = f2 := (List.cons.injEq _ _ _ _ ▸ hL2).1
      rw [hf]
      exact hL3

/-- The last Move of the top-level Container lives directly in the top-level
Container (its frame is the whole mainline). -/
theorem lastMainline_container (e : Engine) (g : GameT) (raw : String)
    (hwf : wfGame g) (mv : MoveT) (en : Entry) (f : Cont) (rest : List Cont)
    (hen : entryOf (mkSt e g raw) mv = some en) (hp : en.path = f :: rest)
    (hlm : isLastOfMainline (mkSt e g raw) mv = true) :
    f.moves = g.moves ∧ f.moves.getLast? = some en.move := by
  rw [isLastOfMainline] at hlm
  rcases hlast : (mkSt e g raw).game.moves.getLast? with _ | lm
  · rw [hlast] at hlm; simp at hlm
  · rw [hlast] at hlm
    have hgm : (mkSt e g raw).game.moves = g.moves := rfl
    rw [hgm] at hlast
    have hmem : lm ∈ g.moves := List.mem_of_mem_getLast? hlast
    obtain ⟨enm, h1, h2, h3⟩ := dfsMs_mem_shallow e [⟨g.moves, none⟩]
      g.moves (startFen g) lm hmem
    have heq : en = enm := by
      have h4 : en ∈ (mkSt e g raw).entries := List.mem_of_find?_eq_some hen
      have hkey1 : en.move.id = mv.id := by
        have := List.find?_some hen
        simpa using this
      have hkey2 : enm.move.id = mv.id := by
        rw [h2]
        simpa using hlm
      exact List.inj_on_of_nodup_map (entries_ids_nodup e g raw hwf)
        h4 h1 (by rw [hkey1, hkey2])
    rw [heq, h3] at hp
    have hf : f = ⟨g.moves, none⟩ := (List.cons.injEq _ _ _ _ ▸ hp.symm).1
    rw [hf]
    refine ⟨rfl, ?_⟩
    rw [heq, h2]
    exact hlast

end PGNM

namespace PGNM

/-- `nextMove` in the middle of a container: the successor is the next
container element. -/
theorem nextMove_mid (st : St) (m : MoveT) (en : Entry) (f : Cont)
    (rest : List Cont) (i : Nat)
    (hen : entryOf st m = some en) (hp : en.path = f :: rest)
    (hcond : (isLastOfMainline st m || isLastOfSorted st m) = false)
    (hidx : f.moves.findIdx? (fun x => x.id == m.id) = some i)
    (hlt : i + 1 < f.moves.length) :
    nextMove st m = f.moves.get? (i + 1) := by
  rw [nextMove]
  simp only [nextMoveF]
  rw [hcond]
  simp only [Bool.false_eq_true, if_false, hen, Option.map_some', hp, hidx]
  have hne : ((i : Int) == (f.moves.length : Int) - 1) = false := by
    apply beq_false_of_ne
    omega
  rw [hne]
  simp only [Bool.false_eq_true, if_false]
  have hi : ((i : Int) + 1).toNat = i + 1 := by omega
  rw [hi]

mutual
/-- Self-containment, per move: every produced entry's move is a direct
member of its innermost Container. -/
theorem dfsM_self (e : Engine) (path : List Cont) (p : String) (m : MoveT)
    (hnn : path ≠ []) (hm : ∀ f pr, path = f :: pr → m ∈ f.moves) :
    ∀ en ∈ (dfsM e path p m).1,
      ∃ f r, en.path = f :: r ∧ en.move ∈ f.moves := by
  match m with
  | .mk i n t c ravs =>
    intro en hen
    rw [dfsM] at hen
    rcases List.mem_cons.mp hen with rfl | hrav
    · match path, hnn with
      | f0 :: pr, _ => exact ⟨f0, pr, rfl, hm f0 pr rfl⟩
    · exact dfsRavs_self e path p (.mk i n t c ravs)
        (MoveT.ravs (.mk i n t c ravs)) en hrav
/-- Self-containment, per variation list. -/
theorem dfsRavs_self (e : Engine) (path : List Cont) (p : String)
    (anc : MoveT) (rs : List RavT) :
    ∀ en ∈ dfsRavs e path p anc rs,
      ∃ f r, en.path = f :: r ∧ en.move ∈ f.moves := by
  match rs with
  | [] => intro en hen; rw [dfsRavs] at hen; simp at hen
  | .mk mvs res :: rs2 =>
    intro en hen
    rw [dfsRavs] at hen
    rcases List.mem_append.mp hen with hl | hr
    · exact dfsMs_self e (⟨mvs, some anc⟩ :: path) p mvs (by simp)
        (by
          intro f pr hfp x hx
          have : f = ⟨mvs, some anc⟩ := ((List.cons.injEq _ _ _ _ ▸ hfp).1).symm
          rw [this]
          exact hx) en hl
    · exact dfsRavs_self e path p anc rs2 en hr
/-- Self-containment, per move list. -/
theorem dfsMs_self (e : Engine) (path : List Cont) (p : String)
    (ms : List MoveT) (hnn : path ≠ [])
    (hms : ∀ f pr, path = f :: pr → ∀ x ∈ ms, x ∈ f.moves) :
    ∀ en ∈ (dfsMs e path p ms).1,
      ∃ f r, en.path = f :: r ∧ en.move ∈ f.moves := by
  match ms with
  | [] => intro en hen; rw [dfsMs] at hen; simp at hen
  | m :: ms2 =>
    intro en hen
    rw [dfsMs] at hen
    rcases List.mem_append.mp hen with hl | hr
    · exact dfsM_self e path p m hnn
        (fun f pr hfp => hms f pr hfp m (List.mem_cons_self _ _)) en hl
    · exact dfsMs_self e path ((dfsM e path p m).2) ms2 hnn
        (fun f pr hfp x hx => hms f pr hfp x (List.mem_cons_of_mem _ hx))
        en hr
end

/-- Every cache entry's move is a direct member of its innermost Container. -/
theorem entry_self (e : Engine) (g : GameT) (raw : String) (mv : MoveT)
    (en : Entry) (f : Cont) (rest : List Cont)
    (hen : entryOf (mkSt e g raw) mv = some en) (hp : en.path = f :: rest) :
    en.move ∈ f.moves := by
  have hmem : en ∈ (mkSt e g raw).entries := List.mem_of_find?_eq_some hen
  obtain ⟨f2, r2, h1, h2⟩ := dfsMs_self e [⟨g.moves, none⟩] (startFen g)
    g.moves (by simp)
    (by
      intro f0 pr hfp x hx
      have : f0 = ⟨g.moves, none⟩ := ((List.cons.injEq _ _ _ _ ▸ hfp).1).symm
      rw [this]
      exact hx) en hmem
  rw [hp] at h1
  have : f = f2 := (List.cons.injEq _ _ _ _ ▸ h1).1
  rw [this]
  exact h2

end PGNM

namespace PGNM

/-- C4: inserting after an existing Move `cur` appends to `cur`'s Container
when `cur` is its last element, and otherwise attaches a brand-new Variation
holding only the new Move (with the given result) to `next(cur)`, the Move
that currently follows `cur` in its Container. -/
theorem claim_C4 (e : Engine) (g : GameT) (raw : String) (hwf : wfGame g)
    (moveId : Int) (nm : ShortMove) (res : String) :
    ∀ cur fen fen2 san col en f rest, moveId ≠ 0 →
      getMove (mkSt e g raw) moveId = some cur →
      getMoveFen (mkSt e g raw) cur = .ok fen →
      e.playShortOr fen nm = some (fen2, san) →
      getMoveColor (mkSt e g raw) cur = .ok col →
      entryOf (mkSt e g raw) cur = some en → en.path = f :: rest →
      (∀ l, f.moves.getLast? = some l → l.id = cur.id →
        ∃ st2 mv, pushMove e (mkSt e g raw) moveId nm res = .ok (st2, mv) ∧
          st2.game.moves = updCMs cur.id (fun ms => ms ++ [mv]) g.moves) ∧
      (∀ l, f.moves.getLast? = some l → l.id ≠ cur.id →
        ∃ st2 mv a, nextMove (mkSt e g raw) cur = some a ∧
          pushMove e (mkSt e g raw) moveId nm res = .ok (st2, mv) ∧
          st2.game.moves
            = updMv a.id (MoveT.pushRav (.mk [mv] (some res))) g.moves ∧
          (∀ i, f.moves.findIdx? (fun x => x.id == cur.id) = some i →
            f.moves.get? (i + 1) = some a)) := by
  intro cur fen fen2 san col en f rest hne hcur hfen hplay hcol hen hp
  have h0 : (moveId == 0) = false := beq_false_of_ne hne
  have hm : cur ∈ sortedOf (mkSt e g raw) := by
    rw [getMove] at hcur
    by_cases hz : moveId ≤ 0
    · rw [if_pos hz] at hcur; simp at hcur
    · rw [if_neg hz] at hcur
      exact List.get?_mem hcur
  obtain ⟨enC, henC, henCmove⟩ := entryOf_of_mem e g raw hwf cur hm
  have henEq : en = enC := by
    rw [hen] at henC
    simpa using henC
  subst henEq
  constructor
  · intro l hl hlid
    rw [pushMove]
    simp only [h0, Bool.false_eq_true, if_false, bind, Except.bind, pure,
      Except.pure, hcur, hfen, hplay, hcol, hen, Option.map_some', hp]
    have hpv : (match f.moves.getLast? with
        | some x => !x.id == cur.id
        | none => true) = false := by
      rw [hl]
      simp [hlid]
    rw [hpv]
    simp only [Bool.false_eq_true, if_false]
    exact ⟨_, _, rfl, rfl⟩
  · intro l hl hlid
    have hnotLS : isLastOfSorted (mkSt e g raw) cur = false := by
      by_contra hx
      have hx2 : isLastOfSorted (mkSt e g raw) cur = true := by
        revert hx
        cases isLastOfSorted (mkSt e g raw) cur <;> simp
      have := lastSorted_container e g raw hwf cur en f rest hen hp hx2
      rw [hl] at this
      have hle : l = en.move := by simpa using this
      rw [hle, henCmove] at hlid
      exact hlid rfl
    have hnotLM : isLastOfMainline (mkSt e g raw) cur = false := by
      by_contra hx
      have hx2 : isLastOfMainline (mkSt e g raw) cur = true := by
        revert hx
        cases isLastOfMainline (mkSt e g raw) cur <;> simp
      obtain ⟨hfeq, hlast⟩ := lastMainline_container e g raw hwf cur en f rest
        hen hp hx2
      rw [hl] at hlast
      have hle : l = en.move := by simpa using hlast
      rw [hle, henCmove] at hlid
      exact hlid rfl
    have hcond : (isLastOfMainline (mkSt e g raw) cur
        || isLastOfSorted (mkSt e g raw) cur) = false := by
      rw [hnotLS, hnotLM]
      rfl
    have hcurin : cur ∈ f.moves := by
      have := entry_self e g raw cur en f rest hen hp
      rw [henCmove] at this
      exact this
    obtain ⟨i, hidx⟩ : ∃ i, f.moves.findIdx? (fun x => x.id == cur.id)
        = some i := by
      rcases hfi : f.moves.findIdx? (fun x => x.id == cur.id) with _ | i
      · exfalso
        have := List.findIdx?_eq_none_iff.mp hfi cur hcurin
        simp at this
      · exact ⟨i, hfi⟩
    obtain ⟨hilen, hifnd⟩ := List.findIdx?_eq_some_iff_findIdx_eq.mp hidx
    have hxid : (f.moves.get ⟨i, hilen⟩).id = cur.id := by
      have := @List.findIdx_getElem _ (fun x => x.id == cur.id) f.moves
        (by rw [hifnd]; exact hilen)
      rw [List.get_eq_getElem]
      simp only [hifnd] at this
      simpa using this
    have hlenpos : f.moves ≠ [] := by
      intro hx
      rw [hx] at hcurin
      simp at hcurin
    have hlastget : f.moves.getLast? = f.moves.get? (f.moves.length - 1) :=
      f.moves.getLast?_eq_get?
    have hine : i ≠ f.moves.length - 1 := by
      intro hxeq
      rw [hl] at hlastget
      have : f.moves.get? (f.moves.length - 1) = some (f.moves.get ⟨i, hilen⟩) := by
        rw [← hxeq]
        exact List.get?_eq_get hilen
      rw [this] at hlastget
      have hle : l = f.moves.get ⟨i, hilen⟩ := by simpa using hlastget
      rw [hle] at hlid
      exact hlid hxid
    have hlt : i + 1 < f.moves.length := by omega
    have hnext : nextMove (mkSt e g raw) cur = f.moves.get? (i + 1) :=
      nextMove_mid (mkSt e g raw) cur en f rest i hen hp hcond hidx hlt
    have hget : f.moves.get? (i + 1) = some (f.moves.get ⟨i + 1, hlt⟩) :=
      List.get?_eq_get hlt
    have hex : ∃ st2 mv,
        pushMove e (mkSt e g raw) moveId nm res = .ok (st2, mv) ∧
        st2.game.moves = updMv (f.moves.get ⟨i + 1, hlt⟩).id
          (MoveT.pushRav (.mk [mv] (some res))) g.moves := by
      rw [pushMove]
      simp only [h0, Bool.false_eq_true, if_false, bind, Except.bind, pure,
        Except.pure, hcur, hfen, hplay, hcol, hen, Option.map_some', hp]
      have hpv : (match f.moves.getLast? with
          | some x => !x.id == cur.id
          | none => true) = true := by
        rw [hl]
        simp
        intro hx
        exact hlid hx
      rw [hpv]
      simp only [if_true]
      rw [hnext, hget]
      exact ⟨_, _, rfl, rfl⟩
    obtain ⟨st2, mv, hp1, hp2⟩ := hex
    refine ⟨st2, mv, f.moves.get ⟨i + 1, hlt⟩, by rw [hnext, hget], hp1, hp2, ?_⟩
    intro i2 hidx2
    have : i2 = i := by
      rw [hidx] at hidx2
      simpa using hidx2.symm
    rw [this]
    exact hget

end PGNM

namespace PGNM

/-- C4 witness: pushing after `e5` (not last in the mainline) creates a new
variation attached to `next(e5) = Nf3`. -/
theorem claim_C4_witness :
    ∃ st2 mv, pushMove simpleEngine exSt 2 ⟨"g1", "f3", none⟩ "*"
        = .ok (st2, mv) ∧
      nextMove exSt exM2 = some exM3 ∧
      st2.game.moves
        = updMv exM3.id (MoveT.pushRav (.mk [mv] (some "*"))) exGame.moves := by
  have h := (claim_C4 simpleEngine exGame "ex" exGame_wf 2 ⟨"g1", "f3", none⟩
      "*" exM2 "e5" "g1f3" "g1f3" Color.b
      ⟨exM2, "e5", Color.b, [exMainCont]⟩ exMainCont []
      (by decide)
      (by show getMove exSt 2 = some exM2; rw [getMove]; simp [exSt_sorted])
      (by show getMoveFen exSt exM2 = .ok "e5"; rw [getMoveFen, exSt_entry2]; rfl)
      rfl
      (by show getMoveColor exSt exM2 = .ok Color.b; rw [getMoveColor, exSt_entry2])
      exSt_entry2 rfl).2 exM6 rfl (by decide)
  obtain ⟨st2, mv, a, h1, h2, h3, h4⟩ := h
  have hgt : exMainCont.moves.get? (1 + 1) = some a := h4 1 (by decide)
  have ha : a = exM3 := by
    have : some exM3 = some a := by rw [← hgt]; rfl
    simpa using this.symm
  subst ha
  exact ⟨st2, mv, h2, h1, h3⟩

end PGNM

namespace PGNM

/-!
## Delete: locating the pruned container
-/

mutual
/-- The container that `deleteMove` splices: the unique list of the tree
directly holding the move with id `mid`, found by the same search that
`updCMs` performs, together with the target's index in it. -/
def findContMs (mid : Nat) (ms : List MoveT) : Option (List MoveT × Nat) :=
  if ms.any (fun x => x.id == mid) then
    some (ms, ms.findIdx (fun x => x.id == mid))
  else findContEach mid ms
termination_by (sizeOf ms, 1)
/-- Search the variations of each move. -/
def findContEach (mid : Nat) : List MoveT → Option (List MoveT × Nat)
  | [] => none
  | .mk _ _ _ _ ravs :: ms =>
    match findContRavs mid ravs with
    | some z => some z
    | none => findContEach mid ms
termination_by ms => (sizeOf ms, 0)
/-- Search each variation's move list. -/
def findContRavs (mid : Nat) : List RavT → Option (List MoveT × Nat)
  | [] => none
  | .mk mvs _ :: rs =>
    match findContMs mid mvs with
    | some z => some z
    | none => findContRavs mid rs
termination_by rs => (sizeOf rs, 0)
end

/-- Deep ids of a variation list. -/
def idsOfRavs (rs : List RavT) : List Nat := (linRavs rs).map MoveT.id

theorem linMs_cons (i : Nat) (n : JNum) (t : String) (c : List String)
    (ravs : List RavT) (ms : List MoveT) :
    linMs (.mk i n t c ravs :: ms)
      = .mk i n t c ravs :: (linRavs ravs ++ linMs ms) := by
  rw [linMs]

theorem linRavs_cons (mvs : List MoveT) (res : Option String) (rs : List RavT) :
    linRavs (.mk mvs res :: rs) = linMs mvs ++ linRavs rs := by
  rw [linRavs]

/-- Linearization distributes over container concatenation. -/
theorem linMs_append (xs ys : List MoveT) :
    linMs (xs ++ ys) = linMs xs ++ linMs ys := by
  induction xs with
  | nil => rw [linMs]; simp
  | cons m xs2 ih =>
    obtain ⟨i, n, t, c, ravs⟩ := m
    rw [List.cons_append, linMs_cons, linMs_cons, ih]
    simp

theorem idsOf_append (xs ys : List MoveT) :
    idsOf (xs ++ ys) = idsOf xs ++ idsOf ys := by
  rw [idsOf, linMs_append]
  simp [idsOf]

theorem idsOf_cons (i : Nat) (n : JNum) (t : String) (c : List String)
    (ravs : List RavT) (ms : List MoveT) :
    idsOf (.mk i n t c ravs :: ms) = i :: (idsOfRavs ravs ++ idsOf ms) := by
  rw [idsOf, linMs_cons]
  simp [idsOfRavs, idsOf, MoveT.id]

theorem idsOfRavs_cons (mvs : List MoveT) (res : Option String)
    (rs : List RavT) :
    idsOfRavs (.mk mvs res :: rs) = idsOf mvs ++ idsOfRavs rs := by
  rw [idsOfRavs, linRavs_cons]
  simp [idsOf, idsOfRavs]

/-- Direct container members occur in the linearization. -/
theorem mem_linMs_self (ms : List MoveT) : ∀ x ∈ ms, x ∈ linMs ms := by
  induction ms with
  | nil => simp
  | cons m ms2 ih =>
    obtain ⟨i, n, t, c, ravs⟩ := m
    intro x hx
    rw [linMs_cons]
    rcases List.mem_cons.mp hx with rfl | h2
    · exact List.mem_cons_self _ _
    · exact List.mem_cons_of_mem _ (List.mem_append.mpr (Or.inr (ih x h2)))

end PGNM

namespace PGNM

mutual
/-- A found container implies the id occurs in the subtree. -/
theorem findContMs_some_mem (mid : Nat) (ms : List MoveT) (z : List MoveT × Nat)
    (h : findContMs mid ms = some z) : mid ∈ idsOf ms := by
  rw [findContMs] at h
  by_cases hany : ms.any (fun x => x.id == mid)
  · obtain ⟨x, hx1, hx2⟩ := List.any_eq_true.mp hany
    have : x.id = mid := by simpa using hx2
    rw [← this]
    exact List.mem_map_of_mem MoveT.id (mem_linMs_self ms x hx1)
  · rw [if_neg hany] at h
    exact findContEach_some_mem mid ms z h
termination_by (sizeOf ms, 1)
/-- A found container among the children implies the id occurs. -/
theorem findContEach_some_mem (mid : Nat) (ms : List MoveT)
    (z : List MoveT × Nat) (h : findContEach mid ms = some z) :
    mid ∈ idsOf ms := by
  match ms with
  | [] => rw [findContEach] at h; exact absurd h (by simp)
  | .mk i n t c ravs :: ms2 =>
    rw [findContEach] at h
    rw [idsOf_cons]
    rcases hr : findContRavs mid ravs with _ | z2
    · rw [hr] at h
      have := findContEach_some_mem mid ms2 z h
      exact List.mem_cons_of_mem _ (List.mem_append.mpr (Or.inr this))
    · rw [hr] at h
      have := findContRavs_some_mem mid ravs z2 hr
      exact List.mem_cons_of_mem _ (List.mem_append.mpr (Or.inl this))
termination_by (sizeOf ms, 0)
/-- A found container among a variation list implies the id occurs. -/
theorem findContRavs_some_mem (mid : Nat) (rs : List RavT)
    (z : List MoveT × Nat) (h : findContRavs mid rs = some z) :
    mid ∈ idsOfRavs rs := by
  match rs with
  | [] => rw [findContRavs] at h; exact absurd h (by simp)
  | .mk mvs res :: rs2 =>
    rw [findContRavs] at h
    rw [idsOfRavs_cons]
    rcases hm : findContMs mid mvs with _ | z2
    · rw [hm] at h
      exact List.mem_append.mpr (Or.inr (findContRavs_some_mem mid rs2 z h))
    · rw [hm] at h
      exact List.mem_append.mpr (Or.inl (findContMs_some_mem mid mvs z2 hm))
termination_by (sizeOf rs, 0)
end

mutual
/-- An id occurring in the subtree is found by the container search. -/
theorem findContMs_isSome (mid : Nat) (ms : List MoveT)
    (h : mid ∈ idsOf ms) : (findContMs mid ms).isSome := by
  rw [findContMs]
  by_cases hany : ms.any (fun x => x.id == mid)
  · rw [if_pos hany]; rfl
  · rw [if_neg hany]
    exact findContEach_isSome mid ms h (by simpa using hany)
termination_by (sizeOf ms, 1)
/-- An id occurring in the subtree but not directly in the container is
found by the child search. -/
theorem findContEach_isSome (mid : Nat) (ms : List MoveT)
    (h : mid ∈ idsOf ms)
    (hnd : ms.any (fun x => x.id == mid) = false) :
    (findContEach mid ms).isSome := by
  match ms with
  | [] => simp [idsOf, linMs] at h
  | .mk i n t c ravs :: ms2 =>
    rw [findContEach]
    rw [idsOf_cons] at h
    have hndh : ¬(i == mid) := by
      intro hx
      have hthis : ((MoveT.mk i n t c ravs).id == mid) = true := by
        simpa [MoveT.id] using hx
      have h5 : ((MoveT.mk i n t c ravs :: ms2).any
          (fun x => x.id == mid)) = true :=
        List.any_eq_true.mpr ⟨MoveT.mk i n t c ravs, List.mem_cons_self _ _,
          hthis⟩
      rw [hnd] at h5
      exact absurd h5 (by simp)
    have hnd2 : ms2.any (fun x => x.id == mid) = false := by
      rcases hx : ms2.any (fun x => x.id == mid) with _ | _
      · rfl
      · exfalso
        obtain ⟨x, hx1, hx2⟩ := List.any_eq_true.mp hx
        have h6 : ((MoveT.mk i n t c ravs :: ms2).any
            (fun x => x.id == mid)) = true :=
          List.any_eq_true.mpr ⟨x, List.mem_cons_of_mem _ hx1, hx2⟩
        rw [hnd] at h6
        exact absurd h6 (by simp)
    rcases List.mem_cons.mp h with rfl | h2
    · exact absurd (by simp : (mid == mid) = true) (by simpa using hndh)
    · rcases hr : findContRavs mid ravs with _ | z2
      · rcases List.mem_append.mp h2 with h3 | h4
        · exfalso
          have hrs := findContRavs_isSome mid ravs h3
          rw [hr] at hrs
          simp at hrs
        · exact findContEach_isSome mid ms2 h4 hnd2
      · rfl
termination_by (sizeOf ms, 0)
/-- An id occurring in a variation list is found by its search. -/
theorem findContRavs_isSome (mid : Nat) (rs : List RavT)
    (h : mid ∈ idsOfRavs rs) : (findContRavs mid rs).isSome := by
  match rs with
  | [] => simp [idsOfRavs, linRavs] at h
  | .mk mvs res :: rs2 =>
    rw [findContRavs]
    rcases hm : findContMs mid mvs with _ | z2
    · rw [idsOfRavs_cons] at h
      rcases List.mem_append.mp h with h1 | h2
      · exfalso
        have := findContMs_isSome mid mvs h1
        rw [hm] at this
        simp at this
      · exact findContRavs_isSome mid rs2 h2
    · rfl
termination_by (sizeOf rs, 0)
end

end PGNM

namespace PGNM

mutual
/-- The container update is the identity outside the id's subtree. -/
theorem updCMs_noop (mid : Nat) (fcn : List MoveT → List MoveT)
    (ms : List MoveT) (h : mid ∉ idsOf ms) : updCMs mid fcn ms = ms := by
  rw [updCMs]
  have hany : ms.any (fun x => x.id == mid) = false := by
    rcases hx : ms.any (fun x => x.id == mid) with _ | _
    · rfl
    · exfalso
      obtain ⟨x, hx1, hx2⟩ := List.any_eq_true.mp hx
      apply h
      have : x.id = mid := by simpa using hx2
      rw [← this]
      exact List.mem_map_of_mem MoveT.id (mem_linMs_self ms x hx1)
  rw [hany]
  simp only [Bool.false_eq_true, if_false]
  exact updCEach_noop mid fcn ms h
termination_by (sizeOf ms, 1)
/-- The per-child update is the identity outside the id's subtree. -/
theorem updCEach_noop (mid : Nat) (fcn : List MoveT → List MoveT)
    (ms : List MoveT) (h : mid ∉ idsOf ms) : updCEach mid fcn ms = ms := by
  match ms with
  | [] => rw [updCEach]
  | .mk i n t c ravs :: ms2 =>
    rw [updCEach]
    rw [idsOf_cons] at h
    have h1 : mid ∉ idsOfRavs ravs := by
      intro hx
      exact h (List.mem_cons_of_mem _ (List.mem_append.mpr (Or.inl hx)))
    have h2 : mid ∉ idsOf ms2 := by
      intro hx
      exact h (List.mem_cons_of_mem _ (List.mem_append.mpr (Or.inr hx)))
    rw [updCRavs_noop mid fcn ravs h1, updCEach_noop mid fcn ms2 h2]
termination_by (sizeOf ms, 0)
/-- The per-variation update is the identity outside the id's subtree. -/
theorem updCRavs_noop (mid : Nat) (fcn : List MoveT → List MoveT)
    (rs : List RavT) (h : mid ∉ idsOfRavs rs) : updCRavs mid fcn rs = rs := by
  match rs with
  | [] => rw [updCRavs]
  | .mk mvs res :: rs2 =>
    rw [updCRavs]
    rw [idsOfRavs_cons] at h
    have h1 : mid ∉ idsOf mvs := by
      intro hx
      exact h (List.mem_append.mpr (Or.inl hx))
    have h2 : mid ∉ idsOfRavs rs2 := by
      intro hx
      exact h (List.mem_append.mpr (Or.inr hx))
    rw [updCMs_noop mid fcn mvs h1, updCRavs_noop mid fcn rs2 h2]
termination_by (sizeOf rs, 0)
end

mutual
/-- The ids dropped by the splice all occur in the searched subtree. -/
theorem findContMs_sub (mid : Nat) (ms : List MoveT) (C : List MoveT)
    (i : Nat) (h : findContMs mid ms = some (C, i)) :
    ∀ x ∈ idsOf (C.drop i), x ∈ idsOf ms := by
  rw [findContMs] at h
  by_cases hany : ms.any (fun x => x.id == mid)
  · rw [if_pos hany] at h
    have hC : C = ms ∧ i = ms.findIdx (fun x => x.id == mid) := by
      have h2 := Option.some.injEq _ _ ▸ h
      have h3 := Prod.mk.injEq _ _ _ _ ▸ h2.symm
      exact ⟨h3.1, h3.2⟩
    obtain ⟨rfl, rfl⟩ := hC
    intro x hx
    have hsplit : idsOf C = idsOf (C.take (C.findIdx (fun x => x.id == mid)))
        ++ idsOf (C.drop (C.findIdx (fun x => x.id == mid))) := by
      rw [← idsOf_append, List.take_append_drop]
    rw [hsplit]
    exact List.mem_append.mpr (Or.inr hx)
  · rw [if_neg hany] at h
    exact findContEach_sub mid ms C i h
termination_by (sizeOf ms, 1)
/-- Dropped ids of a child search occur in the subtree. -/
theorem findContEach_sub (mid : Nat) (ms : List MoveT) (C : List MoveT)
    (i : Nat) (h : findContEach mid ms = some (C, i)) :
    ∀ x ∈ idsOf (C.drop i), x ∈ idsOf ms := by
  match ms with
  | [] => rw [findContEach] at h; exact absurd h (by simp)
  | .mk j n t c ravs :: ms2 =>
    rw [findContEach] at h
    intro x hx
    rw [idsOf_cons]
    rcases hr : findContRavs mid ravs with _ | z2
    · rw [hr] at h
      exact List.mem_cons_of_mem _ (List.mem_append.mpr
        (Or.inr (findContEach_sub mid ms2 C i h x hx)))
    · rw [hr] at h
      have hz : z2 = (C, i) := by simpa using h
      rw [hz] at hr
      exact List.mem_cons_of_mem _ (List.mem_append.mpr
        (Or.inl (findContRavs_sub mid ravs C i hr x hx)))
termination_by (sizeOf ms, 0)
/-- Dropped ids of a variation-list search occur in the subtree. -/
theorem findContRavs_sub (mid : Nat) (rs : List RavT) (C : List MoveT)
    (i : Nat) (h : findContRavs mid rs = some (C, i)) :
    ∀ x ∈ idsOf (C.drop i), x ∈ idsOfRavs rs := by
  match rs with
  | [] => rw [findContRavs] at h; exact absurd h (by simp)
  | .mk mvs res :: rs2 =>
    rw [findContRavs] at h
    intro x hx
    rw [idsOfRavs_cons]
    rcases hm : findContMs mid mvs with _ | z2
    · rw [hm] at h
      exact List.mem_append.mpr (Or.inr (findContRavs_sub mid rs2 C i h x hx))
    · rw [hm] at h
      have hz : z2 = (C, i) := by simpa using h
      rw [hz] at hm
      exact List.mem_append.mpr (Or.inl (findContMs_sub mid mvs C i hm x hx))
termination_by (sizeOf rs, 0)
end

end PGNM

namespace PGNM

/-- Filter keeps an id list disjoint from the removed set. -/
theorem natFilter_keep (l rem : List Nat) (h : ∀ y ∈ l, y ∉ rem) :
    l.filter (fun y => !(rem.contains y)) = l := by
  apply List.filter_eq_self.mpr
  intro a ha
  rcases hx : rem.contains a with _ | _
  · rfl
  · exact absurd (List.mem_of_elem_eq_true hx) (h a ha)

/-- Filter drops an id list contained in the removed set. -/
theorem natFilter_drop (l rem : List Nat) (h : ∀ y ∈ l, y ∈ rem) :
    l.filter (fun y => !(rem.contains y)) = [] := by
  apply List.filter_eq_nil.mpr
  intro a ha
  have hc : rem.contains a = true := List.elem_eq_true_of_mem (h a ha)
  simp [hc]
  exact h a ha

mutual
/-- The delete splice, by identity: pruning the container found for `kid`
removes from the tree exactly the moves (identified by id, the model of
JavaScript object identity) lying in the subtrees of the dropped container
tail — all other moves remain. -/
theorem updCMs_del (kid : Nat) (ms : List MoveT) (C : List MoveT) (i : Nat)
    (hnod : (idsOf ms).Nodup) (h : findContMs kid ms = some (C, i)) :
    idsOf (updCMs kid (delFn kid) ms)
      = (idsOf ms).filter (fun y => !((idsOf (C.drop i)).contains y)) := by
  rw [updCMs, findContMs] at *
  by_cases hany : ms.any (fun x => x.id == kid)
  · rw [if_pos hany] at h ⊢
    have h2 := Option.some.injEq _ _ ▸ h
    have h3 := Prod.mk.injEq _ _ _ _ ▸ h2.symm
    obtain ⟨hC, hi⟩ := h3
    subst hC
    subst hi
    obtain ⟨x0, hx01, hx02⟩ := List.any_eq_true.mp hany
    have hlt : C.findIdx (fun x => x.id == kid) < C.length :=
      List.findIdx_lt_length_of_exists ⟨x0, hx01, hx02⟩
    have hidx : C.findIdx? (fun x => x.id == kid)
        = some (C.findIdx (fun x => x.id == kid)) :=
      List.findIdx?_eq_some_iff_findIdx_eq.mpr ⟨hlt, rfl⟩
    have hlhs : delFn kid C = C.take (C.findIdx (fun x => x.id == kid)) := by
      rw [delFn, hidx]
    rw [hlhs]
    have hidsplit : idsOf C
        = idsOf (C.take (C.findIdx (fun x => x.id == kid)))
          ++ idsOf (C.drop (C.findIdx (fun x => x.id == kid))) := by
      rw [← idsOf_append, List.take_append_drop]
    have hdisj : (idsOf (C.take (C.findIdx (fun x => x.id == kid)))).Disjoint
        (idsOf (C.drop (C.findIdx (fun x => x.id == kid)))) := by
      apply List.disjoint_of_nodup_append
      rw [← hidsplit]
      exact hnod
    conv_rhs => rw [hidsplit]
    rw [List.filter_append]
    rw [natFilter_keep _ _ (fun y hy hmem => hdisj hy hmem)]
    rw [natFilter_drop _ _ (fun y hy => hy)]
    rw [List.append_nil]
  · rw [if_neg hany] at h ⊢
    exact updCEach_del kid ms C i hnod h
termination_by (sizeOf ms, 1)
/-- Delete below one of the children, by identity. -/
theorem updCEach_del (kid : Nat) (ms : List MoveT) (C : List MoveT) (i : Nat)
    (hnod : (idsOf ms).Nodup) (h : findContEach kid ms = some (C, i)) :
    idsOf (updCEach kid (delFn kid) ms)
      = (idsOf ms).filter (fun y => !((idsOf (C.drop i)).contains y)) := by
  match ms with
  | [] => rw [findContEach] at h; exact absurd h (by simp)
  | .mk j n t c ravs :: ms2 =>
    rw [findContEach] at h
    rw [updCEach, idsOf_cons, idsOf_cons, List.filter_cons]
    rw [idsOf_cons] at hnod
    have hnodr : (idsOfRavs ravs).Nodup :=
      (List.nodup_cons.mp hnod).2.of_append_left
    have hnodm : (idsOf ms2).Nodup :=
      (List.nodup_cons.mp hnod).2.of_append_right
    have hjnot : j ∉ idsOfRavs ravs ++ idsOf ms2 := (List.nodup_cons.mp hnod).1
    have hdisj : (idsOfRavs ravs).Disjoint (idsOf ms2) :=
      List.disjoint_of_nodup_append (List.nodup_cons.mp hnod).2
    rcases hr : findContRavs kid ravs with _ | z2
    · rw [hr] at h
      have hremsub : ∀ x ∈ idsOf (C.drop i), x ∈ idsOf ms2 :=
        findContEach_sub kid ms2 C i h
      have hnorav : kid ∉ idsOfRavs ravs := by
        intro hx
        have := findContRavs_isSome kid ravs hx
        rw [hr] at this
        simp at this
      rw [updCRavs_noop kid (delFn kid) ravs hnorav]
      rw [updCEach_del kid ms2 C i hnodm h]
      have hjkeep : ((idsOf (C.drop i)).contains j) = false := by
        rcases hx : (idsOf (C.drop i)).contains j with _ | _
        · rfl
        · exfalso
          have hmem := List.mem_of_elem_eq_true hx
          exact hjnot (List.mem_append.mpr (Or.inr (hremsub _ hmem)))
      rw [hjkeep]
      simp only [Bool.not_false, if_true]
      rw [List.filter_append]
      rw [natFilter_keep (idsOfRavs ravs) _ (by
        intro y hy hmem
        exact hdisj hy (hremsub _ hmem))]
    · rw [hr] at h
      have hz : z2 = (C, i) := by simpa using h
      rw [hz] at hr
      have hremsub : ∀ x ∈ idsOf (C.drop i), x ∈ idsOfRavs ravs :=
        findContRavs_sub kid ravs C i hr
      have hkid : kid ∈ idsOfRavs ravs := findContRavs_some_mem kid ravs _ hr
      have hnoms2 : kid ∉ idsOf ms2 := by
        intro hx
        exact hdisj hkid hx
      rw [updCEach_noop kid (delFn kid) ms2 hnoms2]
      rw [updCRavs_del kid ravs C i hnodr hr]
      have hjkeep : ((idsOf (C.drop i)).contains j) = false := by
        rcases hx : (idsOf (C.drop i)).contains j with _ | _
        · rfl
        · exfalso
          have hmem := List.mem_of_elem_eq_true hx
          exact hjnot (List.mem_append.mpr (Or.inl (hremsub _ hmem)))
      rw [hjkeep]
      simp only [Bool.not_false, if_true]
      rw [List.filter_append]
      rw [natFilter_keep (idsOf ms2) _ (by
        intro y hy hmem
        exact hdisj (hremsub _ hmem) hy)]
termination_by (sizeOf ms, 0)
/-- Delete below one of the variations, by identity. -/
theorem updCRavs_del (kid : Nat) (rs : List RavT) (C : List MoveT) (i : Nat)
    (hnod : (idsOfRavs rs).Nodup) (h : findContRavs kid rs = some (C, i)) :
    idsOfRavs (updCRavs kid (delFn kid) rs)
      = (idsOfRavs rs).filter (fun y => !((idsOf (C.drop i)).contains y)) := by
  match rs with
  | [] => rw [findContRavs] at h; exact absurd h (by simp)
  | .mk mvs res :: rs2 =>
    rw [findContRavs] at h
    rw [updCRavs, idsOfRavs_cons, idsOfRavs_cons, List.filter_append]
    rw [idsOfRavs_cons] at hnod
    have hnodm : (idsOf mvs).Nodup := hnod.of_append_left
    have hnodr : (idsOfRavs rs2).Nodup := hnod.of_append_right
    have hdisj : (idsOf mvs).Disjoint (idsOfRavs rs2) :=
      List.disjoint_of_nodup_append hnod
    rcases hm : findContMs kid mvs with _ | z2
    · rw [hm] at h
      have hremsub : ∀ x ∈ idsOf (C.drop i), x ∈ idsOfRavs rs2 :=
        findContRavs_sub kid rs2 C i h
      have hnomvs : kid ∉ idsOf mvs := by
        intro hx
        have := findContMs_isSome kid mvs hx
        rw [hm] at this
        simp at this
      rw [updCMs_noop kid (delFn kid) mvs hnomvs]
      rw [updCRavs_del kid rs2 C i hnodr h]
      rw [natFilter_keep (idsOf mvs) _ (by
        intro y hy hmem
        exact hdisj hy (hremsub _ hmem))]
    · rw [hm] at h
      have hz : z2 = (C, i) := by simpa using h
      rw [hz] at hm
      have hremsub : ∀ x ∈ idsOf (C.drop i), x ∈ idsOf mvs :=
        findContMs_sub kid mvs C i hm
      have hkid : kid ∈ idsOf mvs := findContMs_some_mem kid mvs _ hm
      have hnors2 : kid ∉ idsOfRavs rs2 := by
        intro hx
        exact hdisj hkid hx
      rw [updCRavs_noop kid (delFn kid) rs2 hnors2]
      rw [updCMs_del kid mvs C i hnodm hm]
      rw [natFilter_keep (idsOfRavs rs2) _ (by
        intro y hy hmem
        exact hdisj (hremsub _ hmem) hy)]
termination_by (sizeOf rs, 0)
end

end PGNM

namespace PGNM

/-- C7: `deleteMove` at a resolved Move `k`, whose Container is `C` with `k`
at index `i`, removes from the rebuilt Order index exactly the moves
(tracked by id, the model of object identity) in the subtrees of
`C[i..end]` — `k`, every later Move of the same Container, and their attached
variations — and nothing else: every other move, including those in
Variations attached to earlier Moves of `C` and everything outside `C`,
remains present (navigable) in the rebuilt Order index. -/
theorem claim_C7 (e : Engine) (g : GameT) (raw : String) (hwf : wfGame g)
    (moveId : Int) :
    ∀ k C i, getMove (mkSt e g raw) moveId = some k →
      findContMs k.id g.moves = some (C, i) →
      ∃ st2, deleteMove e (mkSt e g raw) moveId = .ok st2 ∧
        (sortedOf st2).map MoveT.id
          = ((sortedOf (mkSt e g raw)).map MoveT.id).filter
              (fun y => !((idsOf (C.drop i)).contains y)) ∧
        (∀ x ∈ sortedOf (mkSt e g raw), x.id ∉ idsOf (C.drop i) →
          x.id ∈ (sortedOf st2).map MoveT.id) ∧
        (∀ x ∈ sortedOf (mkSt e g raw), x.id ∈ idsOf (C.drop i) →
          x.id ∉ (sortedOf st2).map MoveT.id) := by
  intro k C i hk hloc
  have hdel : deleteMove e (mkSt e g raw) moveId
      = .ok (mkSt e { g with moves := updCMs k.id (delFn k.id) g.moves }
          (regeneratePGN { g with moves := updCMs k.id (delFn k.id) g.moves }
            (fun mv => (entryOf (mkSt e g raw) mv).map Entry.color))) := by
    rw [deleteMove, hk]
    rfl
  have h1 : sortedOf (mkSt e { g with moves := updCMs k.id (delFn k.id) g.moves }
      (regeneratePGN { g with moves := updCMs k.id (delFn k.id) g.moves }
        (fun mv => (entryOf (mkSt e g raw) mv).map Entry.color)))
      = linMs (updCMs k.id (delFn k.id) g.moves) := sortedOf_mkSt e _ _
  have h2 : sortedOf (mkSt e g raw) = linMs g.moves := sortedOf_mkSt e g raw
  have h3 := updCMs_del k.id g.moves C i hwf hloc
  refine ⟨_, hdel, ?_, ?_, ?_⟩
  · rw [h1, h2]
    exact h3
  · intro x hx hnotin
    rw [h1]
    show x.id ∈ idsOf (updCMs k.id (delFn k.id) g.moves)
    rw [h3]
    apply List.mem_filter.mpr
    constructor
    · rw [h2] at hx
      exact List.mem_map_of_mem MoveT.id hx
    · rcases hc : (idsOf (C.drop i)).contains x.id with _ | _
      · rfl
      · exact absurd (List.mem_of_elem_eq_true hc) hnotin
  · intro x hx hin
    rw [h1]
    show x.id ∉ idsOf (updCMs k.id (delFn k.id) g.moves)
    rw [h3]
    intro hmem
    have hp := (List.mem_filter.mp hmem).2
    have hc : (idsOf (C.drop i)).contains x.id = true :=
      List.elem_eq_true_of_mem hin
    rw [hc] at hp
    simp at hp

end PGNM

namespace PGNM

/-- C7 witness: deleting `f4` (inside the variation, index 0 of its
container) removes ids 4 and 5 and keeps the mainline 1, 2, 3, 6. -/
theorem claim_C7_witness :
    ∃ st2, deleteMove simpleEngine exSt 4 = .ok st2 ∧
      (sortedOf st2).map MoveT.id = [1, 2, 3, 6] := by
  obtain ⟨st2, h1, h2, h3, h4⟩ := claim_C7 simpleEngine exGame "ex" exGame_wf 4
    exM4 [exM4, exM5] 0
    (by show getMove exSt 4 = some exM4; rw [getMove]; simp [exSt_sorted])
    (by
      simp [findContMs, findContEach, findContRavs, exGame, exM1, exM2,
        exM3, exM4, exM5, exM6, MoveT.id, MoveT.ravs]
      decide)
  refine ⟨st2, h1, ?_⟩
  rw [h2]
  rw [show sortedOf (mkSt simpleEngine exGame "ex")
    = [exM1, exM2, exM3, exM4, exM5, exM6] from exSt_sorted]
  simp [idsOf, linMs, linRavs, exM1, exM2, exM3, exM4, exM5, exM6, MoveT.id]

end PGNM
